import Mathlib

/-!
# Verification of the in-memory finance engine

A shallow embedding of the C++ finance tracker backend
(`hashmap.h`, `linkedlist.h`, `bst.h`, `heap.h`, `queue.h`, `stack.h`,
`trie.h`, `finance_engine.h`) together with proofs and refutations of the
specification's claims about it.

Modelling conventions:
* `double` amounts become `ℚ` (exact arithmetic; the spec treats amounts as
  decimals and excludes numeric formatting from scope).
* Raw-pointer containers become inductive values: the doubly linked list and
  the bill queue become `List`s, the BST becomes an inductive tree, the array
  heap becomes a `List` manipulated by index, the undo stack becomes a `List`
  with its top at the head.
* The two `HashMap` instances become association lists with the same per-key
  semantics (insert updates in place, new keys are appended; the C++ bucket
  layout and hash only affect enumeration order, which no claim relies on).
* The undo `Action`, which the C++ stores as a `'|'`-delimited string that is
  parsed back on `undo()`, is carried as a typed payload with exactly the
  fields the C++ serializes and re-parses.
* `generateId`/`generateBillId` (static counters + wall clock) are modelled by
  passing the generated id explicitly; freshness of generated ids becomes a
  hypothesis where a proof needs it.
-/

set_option linter.unusedVariables false

namespace FinanceDSA

/-- `Transaction` from `linkedlist.h`: id, type ("income"/"expense"), amount,
category, description, date (`YYYY-MM-DD`). -/
structure Transaction where
  id : String
  type : String
  amount : ℚ
  category : String
  description : String
  date : String
  deriving DecidableEq, Repr, Inhabited

/-- `Budget` from `finance_engine.h`: category, limit, spent. -/
structure Budget where
  category : String
  limit : ℚ
  spent : ℚ
  deriving DecidableEq, Repr, Inhabited

/-- `Bill` from `queue.h`. -/
structure Bill where
  id : String
  name : String
  amount : ℚ
  dueDate : String
  category : String
  isPaid : Bool
  deriving DecidableEq, Repr, Inhabited

/-- `CategoryAmount` from `heap.h`. -/
structure CategoryAmount where
  category : String
  totalAmount : ℚ
  deriving DecidableEq, Repr, Inhabited

/-- `ActionType` + `Action` from `stack.h`, with the payload the engine
serializes into `Action::data` carried as typed fields (`ADD_TRANSACTION` and
`DELETE_TRANSACTION` carry the full transaction, `ADD_BUDGET` carries
category and limit, `UPDATE_BUDGET` carries category and the old limit,
the bill actions carry the bill resp. the bill id). -/
inductive Action where
  | ADD_TRANSACTION (t : Transaction)
  | DELETE_TRANSACTION (t : Transaction)
  | ADD_BUDGET (category : String) (limit : ℚ)
  | UPDATE_BUDGET (category : String) (oldLimit : ℚ)
  | ADD_BILL (b : Bill)
  | DELETE_BILL (b : Bill)
  | PAY_BILL (id : String)
  deriving DecidableEq, Repr, Inhabited

/-! ## HashMap (`hashmap.h`) as an association list

`insert` updates the first binding in place or appends a fresh binding;
`search`/`update`/`remove` act on the first binding with the key.  The C++
table distributes bindings over 100 buckets; per-key behaviour is identical
and only the `getAllPairs` enumeration order differs (no claim depends on
it). -/

/-- `HashMap::insert`: update in place if the key exists, else add a binding. -/
def mapInsert {V : Type} : List (String × V) → String → V → List (String × V)
  | [], k, v => [(k, v)]
  | p :: ps, k, v => if p.1 = k then (k, v) :: ps else p :: mapInsert ps k v

/-- `HashMap::search` (also `contains` when paired with `Option.isSome`). -/
def mapLookup {V : Type} : List (String × V) → String → Option V
  | [], _ => none
  | p :: ps, k => if p.1 = k then some p.2 else mapLookup ps k

/-- `HashMap::update`: overwrite the value of an existing key, else no-op. -/
def mapUpdate {V : Type} : List (String × V) → String → V → List (String × V)
  | [], _, _ => []
  | p :: ps, k, v => if p.1 = k then (k, v) :: ps else p :: mapUpdate ps k v

/-- `HashMap::remove`: delete the binding of the key, if any. -/
def mapRemove {V : Type} : List (String × V) → String → List (String × V)
  | [], _ => []
  | p :: ps, k => if p.1 = k then ps else p :: mapRemove ps k

/-- Lookup with the `double current = 0;` default used by the engine. -/
def mapD (m : List (String × ℚ)) (k : String) : ℚ := (mapLookup m k).getD 0

/-! ## String comparison

The C++ compares `std::string` dates lexicographically.  Lean's `String`
order (`String.ltb`) agrees with the lexicographic order on the character
lists (`String.lt_iff_toList_lt`) but is defined by well-founded recursion
and does not evaluate inside `decide`; the embedding therefore compares
through `toList`, which is provably the same order and computes. -/

/-- `operator<` on `std::string`: lexicographic comparison. -/
def strLtB (a b : String) : Bool := decide (a.toList < b.toList)

/-- `operator<=` on `std::string`. -/
def strLeB (a b : String) : Bool := decide (a.toList ≤ b.toList)

/-! ## Doubly linked list (`linkedlist.h`) as a `List Transaction`
(head = front = most recent). -/

/-- Remove the first element with the given id, if present
(`DoublyLinkedList::deleteById` / the erase inside `BST` buckets). -/
def removeFirstById : List Transaction → String → Option (List Transaction)
  | [], _ => none
  | t :: ts, i => if t.id = i then some ts else (removeFirstById ts i).map (t :: ·)

/-- `DoublyLinkedList::deleteById`: list after deletion (unchanged when the
id is absent; the C++ bool result is recovered via `removeFirstById`). -/
def listDeleteById (l : List Transaction) (i : String) : List Transaction :=
  match removeFirstById l i with
  | some l' => l'
  | none => l

/-- First element with the given id (`DoublyLinkedList::findById`, and the
bucket scan of `BST::findHelper`). -/
def findFirstById : List Transaction → String → Option Transaction
  | [], _ => none
  | t :: ts, i => if t.id = i then some t else findFirstById ts i

/-- `DoublyLinkedList::filterByType`. -/
def filterByType (l : List Transaction) (ty : String) : List Transaction :=
  l.filter (fun t => t.type = ty)

/-- `DoublyLinkedList::filterByCategory`. -/
def filterByCategory (l : List Transaction) (c : String) : List Transaction :=
  l.filter (fun t => t.category = c)

/-! ## BST (`bst.h`): date-keyed tree, one bucket of transactions per date. -/

/-- `BSTNode`/`BST`: date key, bucket of transactions sharing the date. -/
inductive BST where
  | leaf
  | node (left : BST) (date : String) (txns : List Transaction) (right : BST)
  deriving DecidableEq, Repr, Inhabited

namespace BST

/-- `BST::insertHelper`: branch on the date, append to the bucket on equality. -/
def insert : BST → Transaction → BST
  | leaf, t => node leaf t.date [t] leaf
  | node l d txns r, t =>
    if strLtB t.date d then node (insert l t) d txns r
    else if strLtB d t.date then node l d txns (insert r t)
    else node l d (txns ++ [t]) r

/-- `BST::inorderHelper` (ascending by date). -/
def inorder : BST → List Transaction
  | leaf => []
  | node l _ txns r => inorder l ++ txns ++ inorder r

/-- `BST::reverseInorderHelper` (descending by date). -/
def reverseInorder : BST → List Transaction
  | leaf => []
  | node l _ txns r => reverseInorder r ++ txns ++ reverseInorder l

/-- `BST::rangeQueryHelper`: prune left below `startDate`, emit in-range
buckets, prune right above `endDate`. -/
def rangeQuery : BST → String → String → List Transaction
  | leaf, _, _ => []
  | node l d txns r, startDate, endDate =>
    (if strLtB startDate d then rangeQuery l startDate endDate else [])
      ++ (if strLeB startDate d && strLeB d endDate then txns else [])
      ++ (if strLtB d endDate then rangeQuery r startDate endDate else [])

/-- `BST::findHelper`: current bucket first, then left, then right. -/
def findById : BST → String → Option Transaction
  | leaf, _ => none
  | node l _ txns r, i =>
    match findFirstById txns i with
    | some t => some t
    | none =>
      match findById l i with
      | some t => some t
      | none => findById r i

/-- `BST::deleteTransactionHelper`: erase the first transaction with the id
from the first bucket containing it (current, then left, then right);
`none` when absent. -/
def deleteHelper : BST → String → Option BST
  | leaf, _ => none
  | node l d txns r, i =>
    match removeFirstById txns i with
    | some txns' => some (node l d txns' r)
    | none =>
      match deleteHelper l i with
      | some l' => some (node l' d txns r)
      | none => (deleteHelper r i).map (fun r' => node l d txns r')

/-- `BST::deleteById` as a state transformer (C++ returns a bool and mutates). -/
def deleteById (b : BST) (i : String) : BST :=
  match deleteHelper b i with
  | some b' => b'
  | none => b

/-- `BST::getByMonth`. -/
def getByMonth (b : BST) (yearMonth : String) : List Transaction :=
  rangeQuery b (yearMonth ++ "-01") (yearMonth ++ "-31")

/-- Search-tree well-formedness: keys strictly ordered left < node < right and
every bucket element carries the node's date.  (Holds for every tree the
engine builds; `insert` and `deleteById` preserve it.) -/
def wf : BST → Bool
  | leaf => true
  | node l d txns r =>
    wf l && wf r
      && (inorder l).all (fun t => strLtB t.date d)
      && (inorder r).all (fun t => strLtB d t.date)
      && txns.all (fun t => t.date = d)

end BST

/-! ## Max heap (`heap.h`)

`MaxHeap` (transactions keyed by `amount`) and `CategoryMaxHeap`
(categories keyed by `totalAmount`) are the same array algorithm; the
embedding is one set of functions over a `List` viewed as the C++ vector,
parameterized by the key. -/

section Heap

variable {α : Type} [Inhabited α] (key : α → ℚ)

/-- `heap[i].amount` — key of the element at index `i` (array read). -/
def hkey (h : List α) (i : ℕ) : ℚ := key (h.getD i default)

/-- `std::swap(heap[i], heap[j])` for in-bounds indices. -/
def swapL (h : List α) (i j : ℕ) : List α :=
  (h.set i (h.getD j default)).set j (h.getD i default)

/-- The `largest` index computed by `heapifyDown`: `i`, replaced by the left
child if strictly larger, then by the right child if strictly larger than
the current largest. -/
def pickLargest (h : List α) (i : ℕ) : ℕ :=
  if 2 * i + 1 < h.length ∧ hkey key h i < hkey key h (2 * i + 1) then
    if 2 * i + 2 < h.length ∧ hkey key h (2 * i + 1) < hkey key h (2 * i + 2) then 2 * i + 2
    else 2 * i + 1
  else
    if 2 * i + 2 < h.length ∧ hkey key h i < hkey key h (2 * i + 2) then 2 * i + 2
    else i

/-- `MaxHeap::heapifyDown` / `CategoryMaxHeap::heapifyDown`: if the larger
child beats index `i`, swap and continue from the child. -/
def heapifyDown (h : List α) (i : ℕ) : List α :=
  if hne : pickLargest key h i = i then h
  else if hlt : i < pickLargest key h i ∧ pickLargest key h i < h.length then
    heapifyDown (swapL h i (pickLargest key h i)) (pickLargest key h i)
  else h
termination_by h.length - i
decreasing_by
  simp only [swapL, List.length_set]
  omega

/-- `MaxHeap::heapifyUp`: bubble index `i` up past smaller parents. -/
def heapifyUp (h : List α) (i : ℕ) : List α :=
  if hi : 0 < i ∧ hkey key h ((i - 1) / 2) < hkey key h i then
    heapifyUp (swapL h ((i - 1) / 2) i) ((i - 1) / 2)
  else h
termination_by i
decreasing_by omega

/-- `MaxHeap::insert`: `push_back` then `heapifyUp` from the new last index. -/
def heapInsert (h : List α) (x : α) : List α :=
  heapifyUp key (h ++ [x]) h.length

/-- The sequence `for (i = size/2 - 1; i >= 0; i--) heapifyDown(i);`
(processes `i`, then `i-1`, …, then `0`). -/
def heapifyFrom (h : List α) : ℕ → List α
  | 0 => heapifyDown key h 0
  | i + 1 => heapifyFrom (heapifyDown key h (i + 1)) i

/-- `MaxHeap::buildHeap` (Floyd): copy the input, then sift down from the
last non-leaf index.  The C++ `int` loop runs only when `size/2 - 1 ≥ 0`. -/
def buildHeap (l : List α) : List α :=
  if l.length ≤ 1 then l else heapifyFrom key l (l.length / 2 - 1)

/-- `MaxHeap::extractMax`: return the root, move the last element to the
root, shrink, sift down (the C++ guards the sift by non-emptiness). -/
def extractMax (h : List α) : Option (α × List α) :=
  match h with
  | [] => none
  | x :: _ =>
    let h1 := (h.set 0 (h.getD (h.length - 1) default)).dropLast
    some (x, if h1.isEmpty then h1 else heapifyDown key h1 0)

/-- The extraction loop of `getTopK`: up to `fuel` extractions, stopping on
an empty heap. -/
def getTopKAux : List α → ℕ → List α
  | _, 0 => []
  | h, fuel + 1 =>
    match extractMax key h with
    | none => []
    | some (x, h') => x :: getTopKAux h' fuel

/-- `MaxHeap::getTopK`: extract up to `k` maxima (the heap itself is backed
up and restored by the C++, so only the extracted list is observable). -/
def getTopK (h : List α) (k : ℤ) : List α := getTopKAux key h k.toNat

end Heap

/-! ## Undo stack (`stack.h`): top of stack = head of list. -/

/-- `UndoStack::push` with capacity `cap`: when `count >= maxSize` the C++
walks to the second-to-last node and deletes the last — which removes the
bottom entry only when the stack holds at least two nodes — then pushes. -/
def stackPushCap (cap : ℕ) (st : List Action) (a : Action) : List Action :=
  let st1 := if cap ≤ st.length then (if 2 ≤ st.length then st.dropLast else st) else st
  a :: st1

/-- `UndoStack` object: items (top first) plus the configured bound. -/
structure UndoStack where
  items : List Action
  maxSize : ℕ
  deriving DecidableEq, Repr

/-- `UndoStack::push` as a method on the stack object. -/
def UndoStack.push (s : UndoStack) (a : Action) : UndoStack :=
  { s with items := stackPushCap s.maxSize s.items a }

/-! ## Trie (`trie.h`): children as an association list (the C++
`unordered_map` iteration order is unspecified; no claim reads it). -/

/-- `TrieNode`: children, end-of-word flag, original-case word at terminals. -/
inductive TrieNode where
  | mk (children : List (Char × TrieNode)) (isEnd : Bool) (word : String)

/-- `children.find(c)`. -/
def findChild : List (Char × TrieNode) → Char → Option TrieNode
  | [], _ => none
  | p :: ps, c => if p.1 = c then some p.2 else findChild ps c

/-- Replace the subtree bound to `c` (used after recursing into it). -/
def updChild : List (Char × TrieNode) → Char → TrieNode → List (Char × TrieNode)
  | [], _, _ => []
  | p :: ps, c, n => if p.1 = c then (c, n) :: ps else p :: updChild ps c n

/-- Walk of `Trie::insert`: follow the lower-cased characters, creating
missing children, and mark the terminal with the original-case word.  The
C++ leaves an existing terminal (and its stored word) unchanged. -/
def trieInsertGo : TrieNode → List Char → String → TrieNode
  | TrieNode.mk ch e w, [], orig =>
    if e then TrieNode.mk ch e w else TrieNode.mk ch true orig
  | TrieNode.mk ch e w, c :: cs, orig =>
    match findChild ch c with
    | some child => TrieNode.mk (updChild ch c (trieInsertGo child cs orig)) e w
    | none => TrieNode.mk (ch ++ [(c, trieInsertGo (TrieNode.mk [] false "") cs orig)]) e w

/-- `Trie` root (the `wordCount` display counter is not read by any claim). -/
structure Trie where
  root : TrieNode

/-- `Trie::insert`: no-op on the empty word, else insert along the
lower-cased key. -/
def Trie.insert (t : Trie) (word : String) : Trie :=
  if word = "" then t else { root := trieInsertGo t.root word.toLower.data word }

/-- The empty trie (`Trie::Trie`). -/
def Trie.empty : Trie := { root := TrieNode.mk [] false "" }

/-! ## Bill queue (`queue.h`) as a `List Bill` (head = front, enqueue at
the back). -/

/-- `BillQueue::markAsPaid`: set `isPaid` on the first bill with the id. -/
def markAsPaid : List Bill → String → List Bill
  | [], _ => []
  | b :: bs, i => if b.id = i then { b with isPaid := true } :: bs else b :: markAsPaid bs i

/-- `BillQueue::findById`. -/
def findBillById : List Bill → String → Option Bill
  | [], _ => none
  | b :: bs, i => if b.id = i then some b else findBillById bs i

/-- `BillQueue::removeById`: unlink the first bill with the id. -/
def removeBillById : List Bill → String → List Bill
  | [], _ => []
  | b :: bs, i => if b.id = i then bs else b :: removeBillById bs i

/-- `BillQueue::getOverdueBills`: unpaid and strictly before the as-of date. -/
def getOverdueBillsQ (q : List Bill) (currentDate : String) : List Bill :=
  q.filter (fun b => !b.isPaid && strLtB b.dueDate currentDate)

/-- `BillQueue::getUnpaidBills`. -/
def getUnpaidBillsQ (q : List Bill) : List Bill := q.filter (fun b => !b.isPaid)


end FinanceDSA
namespace FinanceDSA

/-! ## The engine (`finance_engine.h`) -/

/-- The undo stack bound the engine constructs (`UndoStack undoStack;`,
default `maxSz = 50`). -/
def undoCap : ℕ := 50

/-- The recent-transaction stack bound (`TransactionStack recentStack;`,
default `maxSz = 100`). -/
def recentCap : ℕ := 100

/-- `TransactionStack::push`: push on top, then trim everything beyond the
first `recentCap` entries. -/
def recentPush (st : List Transaction) (t : Transaction) : List Transaction :=
  (t :: st).take recentCap

/-- The private state of `FinanceEngine`, one field per C++ data member. -/
structure EngineState where
  budgetMap : List (String × Budget)
  expenseMap : List (String × ℚ)
  transactionList : List Transaction
  transactionBST : BST
  expenseHeap : List Transaction
  categoryHeap : List CategoryAmount
  billQueue : List Bill
  undoStack : List Action
  recentStack : List Transaction
  categoryTrie : Trie
  payeeTrie : Trie

/-- The default categories seeded into `categoryTrie` by the constructor. -/
def defaultCategories : List String :=
  ["Food", "Transport", "Shopping", "Entertainment", "Bills",
   "Healthcare", "Education", "Salary", "Freelance", "Investment",
   "Rent", "Utilities", "Groceries", "Dining", "Travel"]

/-- `FinanceEngine::FinanceEngine()`: empty structures, default categories
inserted into the category trie. -/
def initState : EngineState :=
  { budgetMap := []
    expenseMap := []
    transactionList := []
    transactionBST := BST.leaf
    expenseHeap := []
    categoryHeap := []
    billQueue := []
    undoStack := []
    recentStack := []
    categoryTrie := defaultCategories.foldl Trie.insert Trie.empty
    payeeTrie := Trie.empty }

/-- `FinanceEngine::updateExpenseTracking`: maintain the running expense
total for the category and mirror it into the budget's `spent`, clamping at
0 on removal. -/
def updateExpenseTracking (s : EngineState) (t : Transaction) (isAdd : Bool) : EngineState :=
  if t.type ≠ "expense" then s
  else
    let current := mapD s.expenseMap t.category
    let newTotal := if isAdd then current + t.amount else max 0 (current - t.amount)
    let s1 := { s with expenseMap := mapInsert s.expenseMap t.category newTotal }
    match mapLookup s.budgetMap t.category with
    | some b => { s1 with budgetMap := mapUpdate s1.budgetMap t.category { b with spent := newTotal } }
    | none => s1

/-- `FinanceEngine::addTransaction`.  `id` stands for the `generateId()`
result (the C++ forms it from a static counter and the wall clock). -/
def addTransaction (s : EngineState) (id ty : String) (amount : ℚ)
    (category description date : String) : Transaction × EngineState :=
  let t : Transaction := ⟨id, ty, amount, category, description, date⟩
  let s1 := { s with
    transactionList := t :: s.transactionList
    transactionBST := s.transactionBST.insert t
    recentStack := recentPush s.recentStack t }
  let s2 := updateExpenseTracking s1 t true
  let s3 := if ty = "expense" then
    { s2 with expenseHeap := heapInsert (fun u => u.amount) s2.expenseHeap t } else s2
  let s4 := { s3 with
    categoryTrie := s3.categoryTrie.insert category
    payeeTrie := if description = "" then s3.payeeTrie else s3.payeeTrie.insert description }
  (t, { s4 with undoStack := stackPushCap undoCap s4.undoStack (Action.ADD_TRANSACTION t) })

/-- `FinanceEngine::deleteTransaction`: look the id up in the BST, record a
`DELETE_TRANSACTION` action, then remove from the list and the BST and
re-sync the expense tracking with the transaction found in the BST. -/
def deleteTransaction (s : EngineState) (id : String) : Bool × EngineState :=
  match s.transactionBST.findById id with
  | none => (false, s)
  | some t =>
    let s1 := { s with undoStack := stackPushCap undoCap s.undoStack (Action.DELETE_TRANSACTION t) }
    let s2 := { s1 with
      transactionList := listDeleteById s1.transactionList id
      transactionBST := s1.transactionBST.deleteById id }
    (true, updateExpenseTracking s2 t false)

/-- `FinanceEngine::getAllTransactions`. -/
def getAllTransactions (s : EngineState) : List Transaction := s.transactionList

/-- `FinanceEngine::getTransactionsInRange`. -/
def getTransactionsInRange (s : EngineState) (startDate endDate : String) : List Transaction :=
  s.transactionBST.rangeQuery startDate endDate

/-- `FinanceEngine::setBudget`: update the limit of an existing budget
(recording `UPDATE_BUDGET` with the old limit) or create a budget whose
`spent` starts from the running expense total (recording `ADD_BUDGET`). -/
def setBudget (s : EngineState) (category : String) (limit : ℚ) : EngineState :=
  let spent := mapD s.expenseMap category
  let s' :=
    match mapLookup s.budgetMap category with
    | some existing =>
      let s1 := { s with undoStack := stackPushCap undoCap s.undoStack (Action.UPDATE_BUDGET category existing.limit) }
      { s1 with budgetMap := mapUpdate s1.budgetMap category { existing with limit := limit } }
    | none =>
      let s1 := { s with undoStack := stackPushCap undoCap s.undoStack (Action.ADD_BUDGET category limit) }
      { s1 with budgetMap := mapInsert s1.budgetMap category ⟨category, limit, spent⟩ }
  { s' with categoryTrie := s'.categoryTrie.insert category }

/-- `FinanceEngine::getBudget`. -/
def getBudget (s : EngineState) (category : String) : Option Budget :=
  mapLookup s.budgetMap category

/-- `FinanceEngine::getAllBudgets` (values of `budgetMap.getAllPairs()`). -/
def getAllBudgets (s : EngineState) : List Budget := s.budgetMap.map (·.2)

/-- `FinanceEngine::addBill` (`id` stands for `generateBillId()`). -/
def addBill (s : EngineState) (id name : String) (amount : ℚ)
    (dueDate category : String) : Bill × EngineState :=
  let b : Bill := ⟨id, name, amount, dueDate, category, false⟩
  (b, { s with
    billQueue := s.billQueue ++ [b]
    undoStack := stackPushCap undoCap s.undoStack (Action.ADD_BILL b) })

/-- `FinanceEngine::payBill`. -/
def payBill (s : EngineState) (id : String) : Bool × EngineState :=
  match findBillById s.billQueue id with
  | some _ =>
    (true, { s with
      undoStack := stackPushCap undoCap s.undoStack (Action.PAY_BILL id)
      billQueue := markAsPaid s.billQueue id })
  | none => (false, s)

/-- `FinanceEngine::removeBill`. -/
def removeBill (s : EngineState) (id : String) : Bool × EngineState :=
  match findBillById s.billQueue id with
  | some b =>
    (true, { s with
      undoStack := stackPushCap undoCap s.undoStack (Action.DELETE_BILL b)
      billQueue := removeBillById s.billQueue id })
  | none => (false, s)

/-- `FinanceEngine::getOverdueBills`. -/
def getOverdueBills (s : EngineState) (currentDate : String) : List Bill :=
  getOverdueBillsQ s.billQueue currentDate

/-- `FinanceEngine::getTopExpenses`: rebuild the heap from the expenses in
the transaction list, then extract the top `k` (the rebuilt heap replaces
the cached `expenseHeap`). -/
def getTopExpenses (s : EngineState) (k : ℤ) : List Transaction × EngineState :=
  let expenses := filterByType s.transactionList "expense"
  let built := buildHeap (fun t => t.amount) expenses
  (getTopK (fun t => t.amount) built k, { s with expenseHeap := built })

/-- `FinanceEngine::getTopCategories`: heap over the strictly positive
running expense totals. -/
def getTopCategories (s : EngineState) (k : ℤ) : List CategoryAmount × EngineState :=
  let categories := s.expenseMap.filterMap
    (fun p => if 0 < p.2 then some (⟨p.1, p.2⟩ : CategoryAmount) else none)
  let built := buildHeap (fun ca => ca.totalAmount) categories
  (getTopK (fun ca => ca.totalAmount) built k, { s with categoryHeap := built })

/-- `FinanceEngine::undo`: pop one action and apply its inverse.
`ADD_TRANSACTION` re-runs `deleteTransaction` and then discards the
compensating record that call pushed; `DELETE_TRANSACTION` re-inserts the
carried transaction; the budget actions restore the map; the bill actions
fall through the `default:` branch, reversing nothing.  Returns `false`
only when the log is empty. -/
def undo (s : EngineState) : Bool × EngineState :=
  match s.undoStack with
  | [] => (false, s)
  | a :: rest =>
    let s1 := { s with undoStack := rest }
    match a with
    | Action.ADD_TRANSACTION t =>
      let s2 := (deleteTransaction s1 t.id).2
      (true, { s2 with undoStack := s2.undoStack.tail })
    | Action.DELETE_TRANSACTION t =>
      let s2 := { s1 with
        transactionList := t :: s1.transactionList
        transactionBST := s1.transactionBST.insert t }
      (true, updateExpenseTracking s2 t true)
    | Action.ADD_BUDGET category _ =>
      (true, { s1 with budgetMap := mapRemove s1.budgetMap category })
    | Action.UPDATE_BUDGET category oldLimit =>
      match mapLookup s1.budgetMap category with
      | some b => (true, { s1 with budgetMap := mapUpdate s1.budgetMap category { b with limit := oldLimit } })
      | none => (true, s1)
    | _ => (true, s1)

/-- `FinanceEngine::canUndo`. -/
def canUndo (s : EngineState) : Bool := !s.undoStack.isEmpty

/-- `FinanceEngine::loadTransaction`: import hook — appends to the back of
the list, bypasses the undo log. -/
def loadTransaction (s : EngineState) (id ty : String) (amount : ℚ)
    (category description date : String) : EngineState :=
  let t : Transaction := ⟨id, ty, amount, category, description, date⟩
  let s1 := { s with
    transactionList := s.transactionList ++ [t]
    transactionBST := s.transactionBST.insert t
    recentStack := recentPush s.recentStack t }
  let s2 := updateExpenseTracking s1 t true
  let s3 := if ty = "expense" then
    { s2 with expenseHeap := heapInsert (fun u => u.amount) s2.expenseHeap t } else s2
  { s3 with
    categoryTrie := s3.categoryTrie.insert category
    payeeTrie := if description = "" then s3.payeeTrie else s3.payeeTrie.insert description }

/-- `FinanceEngine::loadBudget`: import hook, bypasses the undo log. -/
def loadBudget (s : EngineState) (category : String) (limit : ℚ) : EngineState :=
  let spent := mapD s.expenseMap category
  { s with
    budgetMap := mapInsert s.budgetMap category ⟨category, limit, spent⟩
    categoryTrie := s.categoryTrie.insert category }

/-- `FinanceEngine::loadBill`: import hook, bypasses the undo log. -/
def loadBill (s : EngineState) (id name : String) (amount : ℚ)
    (dueDate category : String) (isPaid : Bool) : EngineState :=
  { s with billQueue := s.billQueue ++ [⟨id, name, amount, dueDate, category, isPaid⟩] }

/-- `FinanceEngine::clearAll`: clears the transaction list, BST, expense
heap, recent stack, undo stack and bill queue — and nothing else. -/
def clearAll (s : EngineState) : EngineState :=
  { s with
    transactionList := []
    transactionBST := BST.leaf
    expenseHeap := []
    recentStack := []
    undoStack := []
    billQueue := [] }

/-- `FinanceEngine::getTotalBalance`: income adds, anything else subtracts. -/
def getTotalBalance (s : EngineState) : ℚ :=
  s.transactionList.foldr
    (fun t acc => if t.type = "income" then acc + t.amount else acc - t.amount) 0

/-- `Budget::getPercentUsed`. -/
def Budget.getPercentUsed (b : Budget) : ℚ :=
  if b.limit = 0 then 0 else b.spent / b.limit * 100

/-- `Budget::getAlertLevel`. -/
def Budget.getAlertLevel (b : Budget) : String :=
  let percent := b.getPercentUsed
  if percent ≥ 100 then "exceeded"
  else if percent ≥ 80 then "warning"
  else if percent ≥ 50 then "caution"
  else "normal"

/-- Sum of the amounts of the expense transactions of category `c` in a
transaction list (the quantity `CategoryIndex[c]`/`Budget.spent` mirrors). -/
def expenseSum (l : List Transaction) (c : String) : ℚ :=
  (l.filter (fun t => t.type = "expense" ∧ t.category = c)).foldr (fun t acc => t.amount + acc) 0

end FinanceDSA

namespace FinanceDSA

/-! ## Specification-side definitions used by the theorems -/

/-- `c` is an array-heap child index of `p`. -/
def childOf (p c : ℕ) : Prop := c = 2 * p + 1 ∨ c = 2 * p + 2

/-- Partial max-heap property above threshold `m`: every parent index `≥ m`
dominates its in-bounds children.  `PH key h 0` is the full heap property. -/
def PH {α : Type} [Inhabited α] (key : α → ℚ) (h : List α) (m : ℕ) : Prop :=
  ∀ p c, childOf p c → c < h.length → m ≤ p → hkey key h c ≤ hkey key h p

/-- Ids of transactions carried by `DELETE_TRANSACTION` records in the undo
log: exactly the transactions `undo()` can re-insert into the ledger. -/
def delPayloadIds (st : List Action) : List String :=
  st.filterMap fun a =>
    match a with
    | Action.DELETE_TRANSACTION t => some t.id
    | _ => none

/-- Transaction ids that are live or resurrectable: ids present in the
ledger plus ids of `DELETE_TRANSACTION` payloads in the undo log.
`generateId()` never repeats, so a generated id is fresh for this list. -/
def usedIds (s : EngineState) : List String :=
  s.transactionList.map Transaction.id ++ delPayloadIds s.undoStack

/-- The cross-structure consistency invariant the engine maintains (in the
absence of `clearAll`): no duplicated live/resurrectable ids, the BST holds
the same multiset of transactions as the ledger, amounts are nonnegative
(spec data model: `amount: positive decimal`), budget keys are unique, the
running expense total of every category equals the ledger sum, and every
budget's `spent` mirrors the running total of its category. -/
def engineInv (s : EngineState) : Prop :=
  (usedIds s).Nodup
  ∧ s.transactionBST.inorder.Perm s.transactionList
  ∧ (∀ t ∈ s.transactionList, 0 ≤ t.amount)
  ∧ (∀ a ∈ s.undoStack, ∀ t, a = Action.DELETE_TRANSACTION t → 0 ≤ t.amount)
  ∧ (s.budgetMap.map Prod.fst).Nodup
  ∧ (∀ c, mapD s.expenseMap c = expenseSum s.transactionList c)
  ∧ (∀ c b, mapLookup s.budgetMap c = some b → b.spent = mapD s.expenseMap c)

/-- Engine states reachable through the public mutating API without
`clearAll`.  `addTransaction`/`addBill` ids stand for `generateId()`
results, hence fresh; `loadTransaction` ids are fresh by the §7 caller
contract; amounts are positive decimals per the data model (we only need
nonnegativity). -/
inductive Reachable : EngineState → Prop where
  | init : Reachable initState
  | step_add {s} (id ty : String) (amount : ℚ) (category description date : String)
      (hfresh : id ∉ usedIds s) (hamt : 0 ≤ amount) (h : Reachable s) :
      Reachable (addTransaction s id ty amount category description date).2
  | step_load {s} (id ty : String) (amount : ℚ) (category description date : String)
      (hfresh : id ∉ usedIds s) (hamt : 0 ≤ amount) (h : Reachable s) :
      Reachable (loadTransaction s id ty amount category description date)
  | step_delete {s} (id : String) (h : Reachable s) :
      Reachable (deleteTransaction s id).2
  | step_setBudget {s} (category : String) (limit : ℚ) (h : Reachable s) :
      Reachable (setBudget s category limit)
  | step_loadBudget {s} (category : String) (limit : ℚ) (h : Reachable s) :
      Reachable (loadBudget s category limit)
  | step_undo {s} (h : Reachable s) : Reachable (undo s).2
  | step_addBill {s} (id name : String) (amount : ℚ) (dueDate category : String)
      (h : Reachable s) : Reachable (addBill s id name amount dueDate category).2
  | step_payBill {s} (id : String) (h : Reachable s) : Reachable (payBill s id).2
  | step_removeBill {s} (id : String) (h : Reachable s) : Reachable (removeBill s id).2
  | step_loadBill {s} (id name : String) (amount : ℚ) (dueDate category : String)
      (isPaid : Bool) (h : Reachable s) :
      Reachable (loadBill s id name amount dueDate category isPaid)

/-! ## Concrete states used by witnesses and counterexamples -/

/-- A budget of 100 for "Food" on a fresh engine. -/
def budgetState : EngineState := setBudget initState "Food" 100

/-- `budgetState`, then an 80-expense in "Food", then `clearAll` — the state
that separates the budget's `spent` from the (now empty) ledger. -/
def clearedState : EngineState :=
  clearAll (addTransaction budgetState "t1" "expense" 50 "Food" "" "2024-02-01").2

/-- One unpaid bill `b1` due `2024-01-01`. -/
def billState : EngineState := (addBill initState "b1" "rent" 100 "2024-01-01" "Rent").2

/-- `billState` after `payBill "b1"` (top of the undo log: `PAY_BILL`). -/
def paidState : EngineState := (payBill billState "b1").2

/-- Transactions on three dates, for the range-query witness. -/
def rangeState : EngineState :=
  (addTransaction (addTransaction (addTransaction initState
    "a" "income" 1 "Salary" "" "2024-01-05").2
    "b" "income" 2 "Salary" "" "2024-01-15").2
    "c" "income" 3 "Salary" "" "2024-01-25").2

/-- A state whose running expense totals hold a single strictly positive
category ("Gym" at 5). -/
def gymState : EngineState := { initState with expenseMap := [("Gym", 5)] }

end FinanceDSA

namespace FinanceDSA

/-! ## Basic lemmas -/

theorem strLtB_iff {a b : String} : strLtB a b = true ↔ a < b := by
  rw [String.lt_iff_toList_lt]
  simp [strLtB]

theorem strLeB_iff {a b : String} : strLeB a b = true ↔ a ≤ b := by
  rw [String.le_iff_toList_le]
  simp [strLeB]

theorem strLtB_eq_decide (a b : String) : strLtB a b = decide (a < b) := by
  rw [strLtB, decide_eq_decide, ← String.lt_iff_toList_lt]

theorem strLeB_eq_decide (a b : String) : strLeB a b = decide (a ≤ b) := by
  rw [strLeB, decide_eq_decide, ← String.le_iff_toList_le]

theorem mem_markAsPaid_paid (q : List Bill) (i : String)
    (hnd : (q.map Bill.id).Nodup) :
    ∀ b ∈ markAsPaid q i, b.id = i → b.isPaid = true := by
  induction q with
  | nil => intro b hb; simp [markAsPaid] at hb
  | cons b0 bs ih =>
    simp only [List.map_cons, List.nodup_cons] at hnd
    intro b hb hbi
    by_cases h0 : b0.id = i
    · rw [markAsPaid, if_pos h0, List.mem_cons] at hb
      rcases hb with hb | hb
      · subst hb; rfl
      · exact absurd (by rw [h0, ← hbi]; exact List.mem_map_of_mem Bill.id hb) hnd.1
    · rw [markAsPaid, if_neg h0, List.mem_cons] at hb
      rcases hb with hb | hb
      · exact absurd (hb ▸ hbi) h0
      · exact ih hnd.2 b hb hbi

/-! ## Claim C7 — budget alert levels -/

/-- **C7.** Alert levels are a function of `percentUsed = spent/limit*100`
(0 when the limit is 0): `< 50` normal, `[50,80)` caution, `[80,100)`
warning, `≥ 100` exceeded. -/
theorem getAlertLevel_eq_ite (b : Budget) :
    b.getAlertLevel =
      if b.getPercentUsed ≥ 100 then "exceeded"
      else if b.getPercentUsed ≥ 80 then "warning"
      else if b.getPercentUsed ≥ 50 then "caution"
      else "normal" := rfl

theorem claim_C7 (b : Budget) :
    (b.limit = 0 → b.getPercentUsed = 0)
    ∧ (b.getPercentUsed < 50 → b.getAlertLevel = "normal")
    ∧ (50 ≤ b.getPercentUsed → b.getPercentUsed < 80 → b.getAlertLevel = "caution")
    ∧ (80 ≤ b.getPercentUsed → b.getPercentUsed < 100 → b.getAlertLevel = "warning")
    ∧ (100 ≤ b.getPercentUsed → b.getAlertLevel = "exceeded") := by
  refine ⟨fun h => by simp [Budget.getPercentUsed, h], ?_, ?_, ?_, ?_⟩ <;>
    · intros
      rw [getAlertLevel_eq_ite]
      split_ifs <;> first | rfl | linarith

/-- Witness for C7: spent 80 of limit 100 is 80%, level "warning". -/
theorem claim_C7_witness : (Budget.mk "Food" 100 80).getAlertLevel = "warning" :=
  (claim_C7 (Budget.mk "Food" 100 80)).2.2.2.1
    (by norm_num [Budget.getPercentUsed]) (by norm_num [Budget.getPercentUsed])

/-! ## Claim C9 — `clearAll` frame -/

/-- **C9.** `clearAll` empties the transaction list, BST, expense heap,
recent cache, undo log and bill queue, and leaves the budgets (including
`spent`), the running expense totals and both tries untouched; budget
queries still report pre-clear values. -/
theorem claim_C9 (s : EngineState) :
    (clearAll s).transactionList = []
    ∧ (clearAll s).transactionBST = BST.leaf
    ∧ (clearAll s).expenseHeap = []
    ∧ (clearAll s).recentStack = []
    ∧ (clearAll s).undoStack = []
    ∧ (clearAll s).billQueue = []
    ∧ (clearAll s).budgetMap = s.budgetMap
    ∧ (clearAll s).expenseMap = s.expenseMap
    ∧ (clearAll s).categoryTrie = s.categoryTrie
    ∧ (clearAll s).payeeTrie = s.payeeTrie
    ∧ (∀ c, getBudget (clearAll s) c = getBudget s c)
    ∧ getAllBudgets (clearAll s) = getAllBudgets s
    ∧ getAllTransactions (clearAll s) = [] :=
  ⟨rfl, rfl, rfl, rfl, rfl, rfl, rfl, rfl, rfl, rfl, fun _ => rfl, rfl, rfl⟩

/-! ## Claim C8 — overdue bills -/

/-- **C8.** `getOverdueBills asOf` returns exactly the unpaid bills with
`dueDate < asOf` (strict: a bill due on `asOf` is excluded), and a bill
paid via `payBill` is never returned. -/
theorem claim_C8 :
    (∀ (s : EngineState) (d : String),
      getOverdueBills s d = s.billQueue.filter (fun b => !b.isPaid && b.dueDate < d)
      ∧ (∀ b ∈ getOverdueBills s d, b.isPaid = false ∧ b.dueDate < d)
      ∧ (∀ b ∈ s.billQueue, b.isPaid = false → b.dueDate < d → b ∈ getOverdueBills s d)
      ∧ (∀ b ∈ s.billQueue, b.dueDate = d → b ∉ getOverdueBills s d))
    ∧ (∀ (s : EngineState) (id : String) (s' : EngineState), payBill s id = (true, s') →
        (s.billQueue.map Bill.id).Nodup →
        ∀ d, ∀ b ∈ getOverdueBills s' d, b.id ≠ id) := by
  constructor
  · intro s d
    refine ⟨List.filter_congr (fun b _ => by rw [strLtB_eq_decide]), ?_, ?_, ?_⟩
    · intro b hb
      simp only [getOverdueBills, getOverdueBillsQ, List.mem_filter, Bool.and_eq_true,
        Bool.not_eq_true', strLtB_iff] at hb
      exact ⟨hb.2.1, hb.2.2⟩
    · intro b hb h1 h2
      simp only [getOverdueBills, getOverdueBillsQ, List.mem_filter, Bool.and_eq_true,
        Bool.not_eq_true', strLtB_iff]
      exact ⟨hb, h1, h2⟩
    · intro b hb hd hmem
      simp only [getOverdueBills, getOverdueBillsQ, List.mem_filter, Bool.and_eq_true,
        Bool.not_eq_true', strLtB_iff] at hmem
      exact absurd (hd ▸ hmem.2.2) (lt_irrefl d)
  · intro s id s' hpay hnd d b hb hbid
    cases hfind : findBillById s.billQueue id with
    | none => simp [payBill, hfind] at hpay
    | some b0 =>
      simp only [payBill, hfind, Prod.mk.injEq, true_and] at hpay
      subst hpay
      simp only [getOverdueBills, getOverdueBillsQ, List.mem_filter, Bool.and_eq_true,
        Bool.not_eq_true', decide_eq_true_eq] at hb
      have := mem_markAsPaid_paid s.billQueue id hnd b hb.1 hbid
      rw [hb.2.1] at this
      exact Bool.false_ne_true this

/-- Witness for C8: bill `b1` (due 2024-01-01) is paid; it no longer shows
up among the bills overdue as of 2024-02-01. -/
theorem claim_C8_witness :
    ∀ b ∈ getOverdueBills paidState "2024-02-01", b.id ≠ "b1" :=
  claim_C8.2 billState "b1" paidState rfl (by decide) "2024-02-01"

/-! ## Claim C4 — undo-stack capacity bound -/

/-- Counterexample to C4 as stated: with configured bound 1, two pushes
leave 2 entries on the stack (the C++ trim walks to the second-to-last
node and can never remove the sole node of a one-element stack). -/
theorem claim_C4_counterexample :
    (((UndoStack.mk [] 1).push (Action.PAY_BILL "a")).push (Action.PAY_BILL "b")).maxSize
      < (((UndoStack.mk [] 1).push (Action.PAY_BILL "a")).push (Action.PAY_BILL "b")).items.length := by
  decide

theorem stackPushCap_length_le (cap : ℕ) (hcap : 2 ≤ cap) (st : List Action) (a : Action)
    (h : st.length ≤ cap) : (stackPushCap cap st a).length ≤ cap := by
  unfold stackPushCap
  dsimp only
  split_ifs with h1 h2 <;> simp [List.length_dropLast] <;> omega

theorem foldl_push_length_le (cap : ℕ) (hcap : 2 ≤ cap) :
    ∀ (acts : List Action) (st : UndoStack), st.maxSize = cap → st.items.length ≤ cap →
      ((acts.foldl UndoStack.push st).items.length ≤ cap) := by
  intro acts
  induction acts with
  | nil => intro st hm hl; simpa using hl
  | cons a as ih =>
    intro st hm hl
    exact ih (st.push a) hm (by
      simpa [UndoStack.push, hm] using stackPushCap_length_le cap hcap st.items a hl)

/-- **C4 (amended).** For every configured bound **at least 2** and every
push sequence, the stack size never exceeds the bound, and a push arriving
at capacity drops the bottom entry before pushing.  (As stated, over
*every* bound, the claim is false: bound 1 is exceeded,
`claim_C4_counterexample`; bound 0 makes the C++ trim dereference a null
pointer on the first push.) -/
theorem claim_C4 (cap : ℕ) (hcap : 2 ≤ cap) (acts : List Action) :
    (acts.foldl UndoStack.push (UndoStack.mk [] cap)).items.length ≤ cap
    ∧ (∀ (st : UndoStack) (a : Action), 2 ≤ st.maxSize → st.items.length = st.maxSize →
        (st.push a).items = a :: st.items.dropLast) := by
  constructor
  · exact foldl_push_length_le cap hcap acts (UndoStack.mk [] cap) rfl (by simp)
  · intro st a h2 hfull
    simp only [UndoStack.push, stackPushCap]
    rw [if_pos (le_of_eq hfull.symm), if_pos (hfull ▸ h2)]

/-- Witness for C4: bound 2, three pushes, size stays ≤ 2. -/
theorem claim_C4_witness :
    (([Action.PAY_BILL "a", Action.PAY_BILL "b", Action.PAY_BILL "c"].foldl
      UndoStack.push (UndoStack.mk [] 2)).items.length ≤ 2) :=
  (claim_C4 2 (by decide) [Action.PAY_BILL "a", Action.PAY_BILL "b", Action.PAY_BILL "c"]).1

/-! ## Claim C3 — undo of bill actions -/

/-- Counterexample to C3 as stated: with `PAY_BILL` on top of the log,
`undo()` reverses nothing (the bill stays paid, every structure except the
log is unchanged) and yet returns `true` — so its boolean return reports
that an entry was popped, not that anything was undone. -/
theorem claim_C3_counterexample :
    (undo paidState).1 = true
    ∧ (undo paidState).2.billQueue = paidState.billQueue
    ∧ (undo paidState).2.transactionList = paidState.transactionList
    ∧ (undo paidState).2.budgetMap = paidState.budgetMap
    ∧ (undo paidState).2.expenseMap = paidState.expenseMap
    ∧ paidState.billQueue = [Bill.mk "b1" "rent" 100 "2024-01-01" "Rent" true]
    ∧ paidState.undoStack = [Action.PAY_BILL "b1",
        Action.ADD_BILL (Bill.mk "b1" "rent" 100 "2024-01-01" "Rent" false)]
    ∧ (undo paidState).2.undoStack =
        [Action.ADD_BILL (Bill.mk "b1" "rent" 100 "2024-01-01" "Rent" false)] := by
  decide

/-- **C3 (amended).** When the popped action is `ADD_BILL`/`DELETE_BILL`/
`PAY_BILL`, `undo()` reverses nothing — the state is unchanged apart from
the popped log entry — and returns `true`; `undo()` returns `false` exactly
when the log is empty.  (Its boolean indicates whether an entry was popped,
not whether any effect was reversed.) -/
theorem claim_C3 :
    (∀ (s : EngineState) (a : Action) (rest : List Action),
      s.undoStack = a :: rest →
      ((∃ b, a = Action.ADD_BILL b) ∨ (∃ b, a = Action.DELETE_BILL b) ∨
       (∃ i, a = Action.PAY_BILL i)) →
      undo s = (true, { s with undoStack := rest }))
    ∧ (∀ s : EngineState, s.undoStack = [] → undo s = (false, s)) := by
  constructor
  · intro s a rest hs ha
    rcases ha with ⟨b, rfl⟩ | ⟨b, rfl⟩ | ⟨i, rfl⟩ <;> simp [undo, hs]
  · intro s hs
    simp [undo, hs]

/-- Witness for C3: popping the `PAY_BILL` record of `paidState`. -/
theorem claim_C3_witness :
    undo paidState = (true, { paidState with undoStack :=
      [Action.ADD_BILL (Bill.mk "b1" "rent" 100 "2024-01-01" "Rent" false)] }) :=
  claim_C3.1 paidState (Action.PAY_BILL "b1")
    [Action.ADD_BILL (Bill.mk "b1" "rent" 100 "2024-01-01" "Rent" false)]
    (by decide) (Or.inr (Or.inr ⟨"b1", rfl⟩))

end FinanceDSA


namespace FinanceDSA

/-! ## BST lemmas (claim C5) -/

theorem wf_node_iff {l r : BST} {d : String} {txns : List Transaction} :
    (BST.node l d txns r).wf = true ↔
      l.wf = true ∧ r.wf = true
      ∧ (∀ t ∈ l.inorder, t.date < d)
      ∧ (∀ t ∈ r.inorder, d < t.date)
      ∧ (∀ t ∈ txns, t.date = d) := by
  simp [BST.wf, List.all_eq_true, strLtB_iff, and_assoc]

theorem rangeQuery_eq_filter (lo hi : String) :
    ∀ b : BST, b.wf = true →
      b.rangeQuery lo hi
        = b.inorder.filter (fun t => decide (lo ≤ t.date) && decide (t.date ≤ hi)) := by
  intro b
  induction b with
  | leaf => intro _; rfl
  | node l d txns r ihl ihr =>
    intro hwf
    rw [wf_node_iff] at hwf
    obtain ⟨hwl, hwr, hl, hr, ht⟩ := hwf
    have e1 : (if strLtB lo d then l.rangeQuery lo hi else [])
        = l.inorder.filter (fun t => decide (lo ≤ t.date) && decide (t.date ≤ hi)) := by
      by_cases h1 : lo < d
      · rw [if_pos (strLtB_iff.mpr h1), ihl hwl]
      · rw [if_neg (fun hc => h1 (strLtB_iff.mp hc))]
        symm
        rw [List.filter_eq_nil_iff]
        intro u hu
        have hud : u.date < d := hl u hu
        have hdlo : d ≤ lo := not_lt.mp h1
        simp only [Bool.and_eq_true, decide_eq_true_eq, not_and]
        intro hcon
        exact absurd (lt_of_lt_of_le hud hdlo) (not_lt.mpr hcon)
    have e2 : (if strLeB lo d && strLeB d hi then txns else [])
        = txns.filter (fun t => decide (lo ≤ t.date) && decide (t.date ≤ hi)) := by
      by_cases h2 : lo ≤ d ∧ d ≤ hi
      · rw [if_pos (by rw [Bool.and_eq_true, strLeB_iff, strLeB_iff]; exact h2)]
        symm
        rw [List.filter_eq_self]
        intro u hu
        rw [ht u hu]
        simp only [Bool.and_eq_true, decide_eq_true_eq]
        exact h2
      · rw [if_neg (by rw [Bool.and_eq_true, strLeB_iff, strLeB_iff]; exact h2)]
        symm
        rw [List.filter_eq_nil_iff]
        intro u hu
        rw [ht u hu]
        simp only [Bool.and_eq_true, decide_eq_true_eq]
        exact h2
    have e3 : (if strLtB d hi then r.rangeQuery lo hi else [])
        = r.inorder.filter (fun t => decide (lo ≤ t.date) && decide (t.date ≤ hi)) := by
      by_cases h3 : d < hi
      · rw [if_pos (strLtB_iff.mpr h3), ihr hwr]
      · rw [if_neg (fun hc => h3 (strLtB_iff.mp hc))]
        symm
        rw [List.filter_eq_nil_iff]
        intro u hu
        have hud : d < u.date := hr u hu
        have hhid : hi ≤ d := not_lt.mp h3
        simp only [Bool.and_eq_true, decide_eq_true_eq, not_and]
        intro _ hcon
        exact absurd (lt_of_le_of_lt hhid hud) (not_lt.mpr hcon)
    show _ ++ _ ++ _ = _
    rw [BST.inorder, List.filter_append, List.filter_append, e1, e2, e3]

theorem pairwise_of_forall_mem {α : Type} {R : α → α → Prop} :
    ∀ (l : List α), (∀ a ∈ l, ∀ b ∈ l, R a b) → l.Pairwise R := by
  intro l
  induction l with
  | nil => intro _; exact List.Pairwise.nil
  | cons x xs ih =>
    intro h
    refine List.Pairwise.cons ?_ (ih ?_)
    · intro b hb
      exact h x (List.mem_cons_self x xs) b (List.mem_cons_of_mem x hb)
    · intro a ha b hb
      exact h a (List.mem_cons_of_mem x ha) b (List.mem_cons_of_mem x hb)

theorem inorder_pairwise :
    ∀ b : BST, b.wf = true → b.inorder.Pairwise (fun a b => a.date ≤ b.date) := by
  intro b
  induction b with
  | leaf => intro _; exact List.Pairwise.nil
  | node l d txns r ihl ihr =>
    intro hwf
    rw [wf_node_iff] at hwf
    obtain ⟨hwl, hwr, hl, hr, ht⟩ := hwf
    show ((l.inorder ++ txns) ++ r.inorder).Pairwise _
    rw [List.append_assoc, List.pairwise_append]
    refine ⟨ihl hwl, ?_, ?_⟩
    · rw [List.pairwise_append]
      refine ⟨pairwise_of_forall_mem txns ?_, ihr hwr, ?_⟩
      · intro a ha b hb
        rw [ht a ha, ht b hb]
      · intro a ha b hb
        rw [ht a ha]
        exact le_of_lt (hr b hb)
    · intro a ha b hb
      have had : a.date < d := hl a ha
      rcases List.mem_append.mp hb with hb | hb
      · rw [ht b hb]; exact le_of_lt had
      · exact le_of_lt (lt_trans had (hr b hb))

theorem perm_of_eq {α : Type} {l₁ l₂ : List α} (h : l₁ = l₂) : l₁.Perm l₂ :=
  h ▸ List.Perm.refl _

theorem insert_inorder_perm (t : Transaction) :
    ∀ b : BST, (b.insert t).inorder.Perm (t :: b.inorder) := by
  intro b
  induction b with
  | leaf => exact List.Perm.refl _
  | node l d txns r ihl ihr =>
    rw [BST.insert]
    by_cases h1 : strLtB t.date d
    · rw [if_pos h1]
      show ((l.insert t).inorder ++ txns ++ r.inorder).Perm
        (t :: (l.inorder ++ txns ++ r.inorder))
      exact ((ihl.append_right txns).append_right r.inorder).trans
        (perm_of_eq (by simp))
    · rw [if_neg h1]
      by_cases h2 : strLtB d t.date
      · rw [if_pos h2]
        show ((l.inorder ++ txns) ++ (r.insert t).inorder).Perm
          (t :: ((l.inorder ++ txns) ++ r.inorder))
        exact (List.Perm.append_left (l.inorder ++ txns) ihr).trans List.perm_middle
      · rw [if_neg h2]
        show (l.inorder ++ (txns ++ [t]) ++ r.inorder).Perm
          (t :: (l.inorder ++ txns ++ r.inorder))
        refine (perm_of_eq ?_).trans
          (@List.perm_middle _ t (l.inorder ++ txns) r.inorder)
        simp

theorem insert_inorder_filter_date (t : Transaction) :
    ∀ b : BST, b.wf = true →
      ((b.insert t).inorder).filter (fun u => decide (u.date = t.date))
        = (b.inorder).filter (fun u => decide (u.date = t.date)) ++ [t] := by
  intro b
  induction b with
  | leaf => simp [BST.insert, BST.inorder]
  | node l d txns r ihl ihr =>
    intro hwf
    rw [wf_node_iff] at hwf
    obtain ⟨hwl, hwr, hl, hr, ht⟩ := hwf
    rw [BST.insert]
    by_cases h1 : strLtB t.date d
    · rw [if_pos h1]
      have h1' : t.date < d := strLtB_iff.mp h1
      have hftx : txns.filter (fun u => decide (u.date = t.date)) = [] := by
        rw [List.filter_eq_nil_iff]
        intro u hu
        simp only [decide_eq_true_eq]
        rw [ht u hu]
        exact (ne_of_gt h1')
      have hfr : (r.inorder).filter (fun u => decide (u.date = t.date)) = [] := by
        rw [List.filter_eq_nil_iff]
        intro u hu
        simp only [decide_eq_true_eq]
        intro hc
        exact absurd (hc ▸ hr u hu) (not_lt.mpr (le_of_lt h1'))
      show (((l.insert t).inorder ++ txns ++ r.inorder).filter _) = _
      rw [List.filter_append, List.filter_append, ihl hwl, hftx, hfr]
      rw [BST.inorder, List.filter_append, List.filter_append, hftx, hfr]
      simp
    · rw [if_neg h1]
      by_cases h2 : strLtB d t.date
      · rw [if_pos h2]
        have h2' : d < t.date := strLtB_iff.mp h2
        have hfl : (l.inorder).filter (fun u => decide (u.date = t.date)) = [] := by
          rw [List.filter_eq_nil_iff]
          intro u hu
          simp only [decide_eq_true_eq]
          intro hc
          exact absurd (hc ▸ hl u hu) (not_lt.mpr (le_of_lt h2'))
        have hftx : txns.filter (fun u => decide (u.date = t.date)) = [] := by
          rw [List.filter_eq_nil_iff]
          intro u hu
          simp only [decide_eq_true_eq]
          rw [ht u hu]
          exact (ne_of_lt h2')
        show ((l.inorder ++ txns ++ (r.insert t).inorder).filter _) = _
        rw [List.filter_append, List.filter_append, ihr hwr, hfl, hftx]
        rw [BST.inorder, List.filter_append, List.filter_append, hfl, hftx]
        simp
      · rw [if_neg h2]
        rw [strLtB_iff.not] at h1 h2
        have hd : d = t.date := le_antisymm (not_lt.mp h1) (not_lt.mp h2)
        have hfl : (l.inorder).filter (fun u => decide (u.date = t.date)) = [] := by
          rw [List.filter_eq_nil_iff]
          intro u hu
          simp only [decide_eq_true_eq]
          intro hc
          exact absurd (hc ▸ hl u hu) (by rw [hd]; exact lt_irrefl _)
        have hfr : (r.inorder).filter (fun u => decide (u.date = t.date)) = [] := by
          rw [List.filter_eq_nil_iff]
          intro u hu
          simp only [decide_eq_true_eq]
          intro hc
          exact absurd (hc ▸ hr u hu) (by rw [hd]; exact lt_irrefl _)
        show ((l.inorder ++ (txns ++ [t]) ++ r.inorder).filter _) = _
        rw [List.filter_append, List.filter_append, List.filter_append, hfl, hfr]
        rw [BST.inorder, List.filter_append, List.filter_append, hfl, hfr]
        simp

/-! ## Claim C5 — range-query correctness -/

/-- **C5.** On a well-formed BST in sync with the ledger,
`getTransactionsInRange start end` is exactly the filter of the date-sorted
inorder sequence to `start ≤ date ≤ end` — hence, as a multiset, exactly
the transactions of `getAllTransactions()` in range — in ascending date
order; and insertion appends each transaction after the existing ones of
its date (so equal-date transactions stay in insertion order). -/
theorem claim_C5 :
    (∀ (s : EngineState) (lo hi : String),
      s.transactionBST.wf = true →
      s.transactionBST.inorder.Perm s.transactionList →
      getTransactionsInRange s lo hi
          = s.transactionBST.inorder.filter (fun t => decide (lo ≤ t.date) && decide (t.date ≤ hi))
      ∧ (getTransactionsInRange s lo hi).Perm
          ((getAllTransactions s).filter (fun t => decide (lo ≤ t.date) && decide (t.date ≤ hi)))
      ∧ (getTransactionsInRange s lo hi).Pairwise (fun a b => a.date ≤ b.date))
    ∧ (∀ (b : BST) (t : Transaction), b.wf = true →
        ((b.insert t).inorder).filter (fun u => decide (u.date = t.date))
          = (b.inorder).filter (fun u => decide (u.date = t.date)) ++ [t]) := by
  constructor
  · intro s lo hi hwf hperm
    have hrange : getTransactionsInRange s lo hi
        = s.transactionBST.inorder.filter
            (fun t => decide (lo ≤ t.date) && decide (t.date ≤ hi)) :=
      rangeQuery_eq_filter lo hi s.transactionBST hwf
    refine ⟨hrange, ?_, ?_⟩
    · rw [hrange]
      exact hperm.filter _
    · rw [hrange]
      exact (inorder_pairwise _ hwf).sublist (List.filter_sublist _)
  · intro b t hwf
    exact insert_inorder_filter_date t b hwf

/-- Witness for C5: dates 01-05, 01-15, 01-25; the range [01-10, 01-20]
query is the in-range filter of the date-sorted index. -/
theorem claim_C5_witness :
    getTransactionsInRange rangeState "2024-01-10" "2024-01-20"
      = rangeState.transactionBST.inorder.filter
          (fun t => decide ("2024-01-10" ≤ t.date) && decide (t.date ≤ "2024-01-20")) :=
  (claim_C5.1 rangeState "2024-01-10" "2024-01-20" (by decide) (by decide)).1

end FinanceDSA

namespace FinanceDSA

/-! ## Heap lemmas (claims C6 and C10) -/

section HeapLemmas

variable {α : Type} [Inhabited α] (key : α → ℚ)

theorem getD_set_self {β : Type} [Inhabited β] (l : List β) (i : ℕ) (a : β)
    (h : i < l.length) : (l.set i a).getD i default = a := by
  simp [List.getD_eq_getElem?_getD, List.getElem?_set_self, h]

theorem getD_set_ne {β : Type} [Inhabited β] (l : List β) (i j : ℕ) (a : β)
    (h : i ≠ j) : (l.set i a).getD j default = l.getD j default := by
  simp [List.getD_eq_getElem?_getD, List.getElem?_set_ne, h]

theorem swapL_length (h : List α) (i j : ℕ) : (swapL h i j).length = h.length := by
  simp [swapL]

theorem hkey_swapL (h : List α) (i j : ℕ) (hi : i < h.length) (hj : j < h.length) (x : ℕ) :
    hkey key (swapL h i j) x
      = if x = i then hkey key h j else if x = j then hkey key h i else hkey key h x := by
  unfold hkey swapL
  by_cases hxj : x = j
  · rw [hxj]
    rw [getD_set_self _ _ _ (by simpa using hj)]
    by_cases hji : j = i
    · rw [if_pos hji, hji]
    · rw [if_neg hji, if_pos rfl]
  · rw [getD_set_ne _ _ _ _ (fun hc => hxj hc.symm)]
    by_cases hxi : x = i
    · subst hxi
      rw [getD_set_self _ _ _ hi, if_pos rfl]
    · rw [getD_set_ne _ _ _ _ (fun hc => hxi hc.symm), if_neg hxi, if_neg hxj]

theorem cons_getD_set_perm {β : Type} [Inhabited β] :
    ∀ (l : List β) (m : ℕ) (x : β), m < l.length →
      (l.getD m default :: l.set m x).Perm (x :: l) := by
  intro l
  induction l with
  | nil => intro m x h; simp at h
  | cons y ys ih =>
    intro m x h
    cases m with
    | zero =>
      simp only [List.getD_cons_zero, List.set_cons_zero]
      exact List.Perm.swap x y ys
    | succ m =>
      have h' : m < ys.length := by simpa using h
      simp only [List.getD_cons_succ, List.set_cons_succ]
      exact (List.Perm.swap y (ys.getD m default) (ys.set m x)).trans
        (((ih m x h').cons y).trans (List.Perm.swap x y ys))

theorem swapL_perm :
    ∀ (h : List α) (i j : ℕ), i < h.length → j < h.length → (swapL h i j).Perm h := by
  intro h
  induction h with
  | nil => intro i j hi _; simp at hi
  | cons y ys ih =>
    intro i j hi hj
    cases i with
    | zero =>
      cases j with
      | zero => simp [swapL]
      | succ j =>
        have hj' : j < ys.length := by simpa using hj
        show ((((y :: ys).set 0 ((y :: ys).getD (j + 1) default)).set (j + 1)
          ((y :: ys).getD 0 default))).Perm (y :: ys)
        simp only [List.getD_cons_succ, List.getD_cons_zero, List.set_cons_zero,
          List.set_cons_succ]
        exact cons_getD_set_perm ys j y hj'
    | succ i =>
      cases j with
      | zero =>
        have hi' : i < ys.length := by simpa using hi
        show ((((y :: ys).set (i + 1) ((y :: ys).getD 0 default)).set 0
          ((y :: ys).getD (i + 1) default))).Perm (y :: ys)
        simp only [List.getD_cons_succ, List.getD_cons_zero, List.set_cons_zero,
          List.set_cons_succ]
        exact cons_getD_set_perm ys i y hi'
      | succ j =>
        have hi' : i < ys.length := by simpa using hi
        have hj' : j < ys.length := by simpa using hj
        show ((((y :: ys).set (i + 1) ((y :: ys).getD (j + 1) default)).set (j + 1)
          ((y :: ys).getD (i + 1) default))).Perm (y :: ys)
        simp only [List.getD_cons_succ, List.set_cons_succ]
        exact (ih i j hi' hj').cons y

theorem childOf_lt {p c : ℕ} (h : childOf p c) : p < c := by
  rcases h with h | h <;> omega

theorem childOf_inj {p q c : ℕ} (h1 : childOf p c) (h2 : childOf q c) : p = q := by
  rcases h1 with h1 | h1 <;> rcases h2 with h2 | h2 <;> omega

theorem pickLargest_cases (h : List α) (i : ℕ) :
    pickLargest key h i = i
      ∨ (i < pickLargest key h i ∧ pickLargest key h i < h.length
          ∧ childOf i (pickLargest key h i)) := by
  unfold pickLargest
  split_ifs with h1 h2 h3
  · exact Or.inr ⟨by omega, h2.1, Or.inr rfl⟩
  · exact Or.inr ⟨by omega, h1.1, Or.inl rfl⟩
  · exact Or.inr ⟨by omega, h3.1, Or.inr rfl⟩
  · exact Or.inl rfl

theorem pickLargest_ge_self (h : List α) (i : ℕ) :
    hkey key h i ≤ hkey key h (pickLargest key h i) := by
  unfold pickLargest
  split_ifs with h1 h2 h3
  · exact le_of_lt (lt_trans h1.2 h2.2)
  · exact le_of_lt h1.2
  · exact le_of_lt h3.2
  · exact le_refl _

theorem pickLargest_ge_left (h : List α) (i : ℕ) (hl : 2 * i + 1 < h.length) :
    hkey key h (2 * i + 1) ≤ hkey key h (pickLargest key h i) := by
  unfold pickLargest
  split_ifs with h1 h2 h3
  · exact le_of_lt h2.2
  · exact le_refl _
  · have : ¬ hkey key h i < hkey key h (2 * i + 1) := fun hc => h1 ⟨hl, hc⟩
    exact le_trans (not_lt.mp this) (le_of_lt h3.2)
  · have : ¬ hkey key h i < hkey key h (2 * i + 1) := fun hc => h1 ⟨hl, hc⟩
    exact not_lt.mp this

theorem pickLargest_ge_right (h : List α) (i : ℕ) (hr : 2 * i + 2 < h.length) :
    hkey key h (2 * i + 2) ≤ hkey key h (pickLargest key h i) := by
  unfold pickLargest
  split_ifs with h1 h2 h3
  · exact le_refl _
  · exact not_lt.mp (fun hc => h2 ⟨hr, hc⟩)
  · exact le_refl _
  · exact not_lt.mp (fun hc => h3 ⟨hr, hc⟩)

theorem pickLargest_eq_self_bound (h : List α) (i : ℕ)
    (hp : pickLargest key h i = i) :
    ∀ c, childOf i c → c < h.length → hkey key h c ≤ hkey key h i := by
  intro c hc hcn
  rcases hc with hc | hc
  · subst hc
    have := pickLargest_ge_left key h i hcn
    rwa [hp] at this
  · subst hc
    have := pickLargest_ge_right key h i hcn
    rwa [hp] at this

theorem heapifyDown_correct :
    ∀ (fuel : ℕ) (h : List α) (j m : ℕ), h.length - j ≤ fuel → m ≤ j →
      (∀ p c, childOf p c → c < h.length → m ≤ p → p ≠ j →
        hkey key h c ≤ hkey key h p) →
      (∀ c q, childOf j c → c < h.length → childOf q j → m ≤ q →
        hkey key h c ≤ hkey key h q) →
      PH key (heapifyDown key h j) m ∧ (heapifyDown key h j).Perm h := by
  intro fuel
  induction fuel with
  | zero =>
    intro h j m hfuel hmj H1 H2
    have hjn : h.length ≤ j := by omega
    have hp : pickLargest key h j = j := by
      rcases pickLargest_cases key h j with hp | ⟨_, hlt, _⟩
      · exact hp
      · omega
    have heq : heapifyDown key h j = h := by
      rw [heapifyDown, dif_pos hp]
    rw [heq]
    refine ⟨?_, List.Perm.refl _⟩
    intro p c hpc hcn hmp
    by_cases hpj : p = j
    · subst hpj
      have := childOf_lt hpc
      omega
    · exact H1 p c hpc hcn hmp hpj
  | succ fuel ih =>
    intro h j m hfuel hmj H1 H2
    rcases pickLargest_cases key h j with hp | ⟨hij, hjn, hchild⟩
    · have heq : heapifyDown key h j = h := by
        rw [heapifyDown, dif_pos hp]
      rw [heq]
      refine ⟨?_, List.Perm.refl _⟩
      intro p c hpc hcn hmp
      by_cases hpj : p = j
      · subst hpj
        exact pickLargest_eq_self_bound key h p hp c hpc hcn
      · exact H1 p c hpc hcn hmp hpj
    · have hne : ¬ pickLargest key h j = j := by omega
      have hjlt : j < h.length := lt_trans hij hjn
      have heq : heapifyDown key h j
          = heapifyDown key (swapL h j (pickLargest key h j)) (pickLargest key h j) := by
        rw [heapifyDown, dif_neg hne, dif_pos ⟨hij, hjn⟩]
      set L := pickLargest key h j with hL
      have hW : ∀ x, hkey key (swapL h j L) x
          = if x = j then hkey key h L else if x = L then hkey key h j else hkey key h x :=
        hkey_swapL key h j L hjlt hjn
      have H1' : ∀ p c, childOf p c → c < (swapL h j L).length → m ≤ p → p ≠ L →
          hkey key (swapL h j L) c ≤ hkey key (swapL h j L) p := by
        intro p c hpc hcn hmp hpL
        rw [swapL_length] at hcn
        by_cases hpj : p = j
        · have hcgt : j < c := hpj ▸ childOf_lt hpc
          have hcj : ¬ c = j := by omega
          by_cases hcL : c = L
          · rw [hW c, hW p, if_neg hcj, hcL, if_pos rfl, if_pos hpj]
            exact pickLargest_ge_self key h j
          · rw [hW c, hW p, if_neg hcj, if_neg hcL, if_pos hpj]
            rcases hpc with hc | hc
            · rw [hc, hpj]
              exact pickLargest_ge_left key h j (by rw [← hpj, ← hc]; exact hcn)
            · rw [hc, hpj]
              exact pickLargest_ge_right key h j (by rw [← hpj, ← hc]; exact hcn)
        · by_cases hcj : c = j
          · rw [hW c, hW p, if_pos hcj, if_neg hpj, if_neg hpL]
            exact H2 L p hchild hjn (hcj ▸ hpc) hmp
          · by_cases hcL : c = L
            · exact absurd (childOf_inj hpc (hcL ▸ hchild)) hpj
            · rw [hW c, hW p, if_neg hcj, if_neg hcL, if_neg hpj, if_neg hpL]
              exact H1 p c hpc hcn hmp hpj
      have H2' : ∀ c q, childOf L c → c < (swapL h j L).length → childOf q L → m ≤ q →
          hkey key (swapL h j L) c ≤ hkey key (swapL h j L) q := by
        intro c q hLc hcn hqL hmq
        rw [swapL_length] at hcn
        have hqj : q = j := childOf_inj hqL hchild
        have hLc' : L < c := childOf_lt hLc
        have hcL : ¬ c = L := by omega
        have hcj : ¬ c = j := by omega
        rw [hW c, hW q, if_neg hcj, if_neg hcL, if_pos hqj]
        exact H1 L c hLc hcn (by omega) (by omega)
      have hfuel' : (swapL h j L).length - L ≤ fuel := by
        rw [swapL_length]; omega
      obtain ⟨hPH, hPerm⟩ := ih (swapL h j L) L m hfuel' (by omega) H1' H2'
      rw [heq]
      exact ⟨hPH, hPerm.trans (swapL_perm h j L hjlt hjn)⟩

end HeapLemmas

end FinanceDSA

namespace FinanceDSA

section HeapLemmas2

variable {α : Type} [Inhabited α] (key : α → ℚ)

theorem PH_of_len_le (h : List α) (m : ℕ) (hm : h.length ≤ 2 * m + 1) : PH key h m := by
  intro p c hpc hcn hmp
  rcases hpc with hc | hc <;> omega

theorem heapifyFrom_correct :
    ∀ (i : ℕ) (h : List α), PH key h (i + 1) →
      PH key (heapifyFrom key h i) 0 ∧ (heapifyFrom key h i).Perm h := by
  intro i
  induction i with
  | zero =>
    intro h hPH
    have hmain := heapifyDown_correct key h.length h 0 0 (by omega) (le_refl 0)
      (fun p c hpc hcn _ hp0 => hPH p c hpc hcn (by omega))
      (fun c q _ _ hq0 _ => absurd (childOf_lt hq0) (by omega))
    exact hmain
  | succ i ihi =>
    intro h hPH
    obtain ⟨h1PH, h1Perm⟩ := heapifyDown_correct key h.length h (i + 1) (i + 1)
      (by omega) (le_refl _)
      (fun p c hpc hcn hip hpne => hPH p c hpc hcn (by omega))
      (fun c q _ _ hq hiq => absurd (childOf_lt hq) (by omega))
    obtain ⟨h2PH, h2Perm⟩ := ihi (heapifyDown key h (i + 1)) h1PH
    exact ⟨h2PH, h2Perm.trans h1Perm⟩

theorem buildHeap_correct (l : List α) :
    PH key (buildHeap key l) 0 ∧ (buildHeap key l).Perm l := by
  unfold buildHeap
  by_cases hl : l.length ≤ 1
  · rw [if_pos hl]
    exact ⟨PH_of_len_le key l 0 (by omega), List.Perm.refl _⟩
  · rw [if_neg hl]
    have hstep : l.length / 2 - 1 + 1 = l.length / 2 := by omega
    apply heapifyFrom_correct
    rw [hstep]
    exact PH_of_len_le key l _ (by omega)

theorem PH_le_root (h : List α) (hPH : PH key h 0) :
    ∀ j, j < h.length → hkey key h j ≤ hkey key h 0 := by
  intro j
  induction j using Nat.strong_induction_on with
  | _ j ihj =>
    intro hj
    rcases Nat.eq_zero_or_pos j with h0 | hpos
    · rw [h0]
    · have hparent : childOf ((j - 1) / 2) j := by
        unfold childOf; omega
      have hstep := hPH ((j - 1) / 2) j hparent hj (Nat.zero_le _)
      exact le_trans hstep (ihj ((j - 1) / 2) (by omega) (by omega))

theorem mem_le_root (h : List α) (hPH : PH key h 0) (a : α) (ha : a ∈ h) :
    key a ≤ hkey key h 0 := by
  obtain ⟨n, hn, hna⟩ := List.mem_iff_getElem.mp ha
  have hkn : hkey key h n = key a := by
    rw [hkey, List.getD_eq_getElem?_getD, List.getElem?_eq_getElem hn]
    simpa using congrArg key hna
  rw [← hkn]
  exact PH_le_root key h hPH n hn

theorem getD_dropLast {β : Type} [Inhabited β] (l : List β) (i : ℕ)
    (h : i < l.length - 1) : l.dropLast.getD i default = l.getD i default := by
  rw [List.dropLast_eq_take, List.getD_eq_getElem?_getD, List.getD_eq_getElem?_getD,
    List.getElem?_take, if_pos h]

theorem extractMax_correct (h : List α) (hPH : PH key h 0) (x : α) (h' : List α)
    (hx : extractMax key h = some (x, h')) :
    (x :: h').Perm h ∧ PH key h' 0 ∧ (∀ y ∈ h', key y ≤ key x) := by
  match h, hx with
  | a :: tl, hx =>
    simp only [extractMax, Option.some.injEq, Prod.mk.injEq] at hx
    obtain ⟨hxa, hh'⟩ := hx
    subst hxa
    cases tl with
    | nil =>
      have hh1 : (([a].set 0 ([a].getD ([a].length - 1) default)).dropLast) = ([] : List α) := rfl
      rw [hh1] at hh'
      simp only [List.isEmpty_nil, if_true] at hh'
      subst hh'
      refine ⟨List.Perm.refl _, ?_, by simp⟩
      intro p c hpc hcn hmp
      simp at hcn
    | cons b tl' =>
      have htl : (b :: tl') ≠ ([] : List α) := by simp
      have hlast : (a :: b :: tl').getD ((a :: b :: tl').length - 1) default
          = (b :: tl').getLast htl := by
        have h1 : (a :: b :: tl').length - 1 = tl'.length + 1 := by simp
        rw [h1, List.getD_cons_succ, List.getD_eq_getElem?_getD]
        have hbl : tl'.length < (b :: tl').length := by simp
        rw [List.getElem?_eq_getElem hbl, List.getLast_eq_getElem _ htl]
        simp
      set lastE := (b :: tl').getLast htl with hlastE
      have hset : ((a :: b :: tl').set 0
            ((a :: b :: tl').getD ((a :: b :: tl').length - 1) default))
          = lastE :: b :: tl' := by rw [hlast, List.set_cons_zero]
      have hh1 : (((a :: b :: tl').set 0
            ((a :: b :: tl').getD ((a :: b :: tl').length - 1) default)).dropLast)
          = lastE :: (b :: tl').dropLast := by
        rw [hset, List.dropLast_cons₂]
      rw [hh1] at hh'
      simp only [List.isEmpty_cons, if_false] at hh'
      set h1 := lastE :: (b :: tl').dropLast with hh1def
      have hh1len : h1.length = (b :: tl').length := by
        simp [hh1def, List.length_dropLast]
      have hperm1 : h1.Perm (b :: tl') := by
        have hrest : (b :: tl').dropLast ++ [lastE] = b :: tl' :=
          List.dropLast_append_getLast htl
        exact ((List.perm_append_singleton lastE (b :: tl').dropLast).symm).trans
          (perm_of_eq hrest)
      have hPH1 : ∀ p c, childOf p c → c < h1.length → 1 ≤ p →
          hkey key h1 c ≤ hkey key h1 p := by
        intro p c hpc hcn h1p
        have hclt : p < c := childOf_lt hpc
        have hval : ∀ z, 1 ≤ z → z < h1.length →
            hkey key h1 z = hkey key (a :: b :: tl') z := by
          intro z h1z hz
          rcases Nat.exists_eq_add_of_le h1z with ⟨z', rfl⟩
          have h1z' : 1 + z' = z' + 1 := by omega
          rw [hh1def, hkey, hkey, h1z', List.getD_cons_succ, List.getD_cons_succ,
            getD_dropLast]
          rw [hh1len] at hz
          simp only [List.length_cons] at hz ⊢
          omega
        rw [hval c (by omega) hcn, hval p (by omega) (by omega)]
        refine hPH p c hpc ?_ (Nat.zero_le _)
        rw [hh1len] at hcn
        simp only [List.length_cons] at hcn ⊢
        omega
      obtain ⟨hPH', hperm'⟩ := heapifyDown_correct key h1.length h1 0 0 (by omega) (le_refl 0)
        (fun p c hpc hcn _ hp0 => hPH1 p c hpc hcn (by omega))
        (fun c q _ _ hq0 _ => absurd (childOf_lt hq0) (by omega))
      subst hh'
      refine ⟨?_, hPH', ?_⟩
      · exact ((hperm'.cons a).trans (hperm1.cons a))
      · intro y hy
        have hyh1 : y ∈ h1 := hperm'.mem_iff.mp hy
        have hyh : y ∈ a :: b :: tl' :=
          (hperm1.cons a).mem_iff.mp (List.mem_cons_of_mem a hyh1)
        have hroot := mem_le_root key (a :: b :: tl') hPH y hyh
        simpa [hkey] using hroot

theorem getTopKAux_correct :
    ∀ (fuel : ℕ) (h : List α), PH key h 0 →
      (∀ y ∈ getTopKAux key h fuel, y ∈ h)
      ∧ (getTopKAux key h fuel).Pairwise (fun a b => key b ≤ key a)
      ∧ (h.length ≤ fuel → (getTopKAux key h fuel).Perm h) := by
  intro fuel
  induction fuel with
  | zero =>
    intro h hPH
    refine ⟨by simp [getTopKAux], by simp [getTopKAux], ?_⟩
    intro hlen
    have : h = [] := List.eq_nil_of_length_eq_zero (by omega)
    simp [getTopKAux, this]
  | succ fuel ih =>
    intro h hPH
    cases hx : extractMax key h with
    | none =>
      have hnil : h = [] := by
        cases h with
        | nil => rfl
        | cons a tl => simp [extractMax] at hx
      subst hnil
      simp [getTopKAux, hx]
    | some p =>
      obtain ⟨x, h'⟩ := p
      obtain ⟨hperm, hPH', hmax⟩ := extractMax_correct key h hPH x h' hx
      obtain ⟨ihmem, ihpw, ihperm⟩ := ih h' hPH'
      have hgt : getTopKAux key h (fuel + 1) = x :: getTopKAux key h' fuel := by
        rw [getTopKAux, hx]
      rw [hgt]
      refine ⟨?_, ?_, ?_⟩
      · intro y hy
        rcases List.mem_cons.mp hy with hy | hy
        · rw [hy]
          exact hperm.mem_iff.mp (List.mem_cons_self x h')
        · exact hperm.mem_iff.mp (List.mem_cons_of_mem x (ihmem y hy))
      · refine List.Pairwise.cons ?_ ihpw
        intro y hy
        exact hmax y (ihmem y hy)
      · intro hlen
        have hlen' : h'.length ≤ fuel := by
          have := hperm.length_eq
          simp at this
          omega
        exact ((ihperm hlen').cons x).trans hperm

theorem getTopK_correct (h : List α) (hPH : PH key h 0) (k : ℤ) :
    (k ≤ 0 → getTopK key h k = [])
    ∧ (∀ y ∈ getTopK key h k, y ∈ h)
    ∧ (getTopK key h k).Pairwise (fun a b => key b ≤ key a)
    ∧ ((h.length : ℤ) ≤ k → (getTopK key h k).Perm h) := by
  obtain ⟨hmem, hpw, hperm⟩ := getTopKAux_correct key k.toNat h hPH
  refine ⟨?_, hmem, hpw, ?_⟩
  · intro hk
    have : k.toNat = 0 := by omega
    rw [getTopK, this]
    rfl
  · intro hk
    exact hperm (by omega)

end HeapLemmas2

end FinanceDSA

namespace FinanceDSA

/-! ## Engine-level top-K lemmas -/

theorem uet_transactionList (s : EngineState) (t : Transaction) (b : Bool) :
    (updateExpenseTracking s t b).transactionList = s.transactionList := by
  rw [updateExpenseTracking]
  by_cases h : t.type ≠ "expense"
  · rw [if_pos h]
  · rw [if_neg h]
    cases hl : mapLookup s.budgetMap t.category <;> simp [hl]

theorem listDeleteById_ne (i : String) :
    ∀ (l : List Transaction), (l.map Transaction.id).Nodup →
      ∀ u ∈ listDeleteById l i, u.id ≠ i := by
  intro l
  induction l with
  | nil => intro _ u hu; simp [listDeleteById, removeFirstById] at hu
  | cons t ts ih =>
    intro hnd u hu
    simp only [List.map_cons, List.nodup_cons] at hnd
    by_cases ht : t.id = i
    · rw [listDeleteById, removeFirstById, if_pos ht] at hu
      intro hui
      exact hnd.1 (by rw [ht, ← hui]; exact List.mem_map_of_mem Transaction.id hu)
    · rw [listDeleteById, removeFirstById, if_neg ht] at hu
      cases hr : removeFirstById ts i with
      | none =>
        rw [hr] at hu
        simp only [Option.map_none'] at hu
        rcases List.mem_cons.mp hu with hu | hu
        · rw [hu]; exact ht
        · exact ih hnd.2 u (by rw [listDeleteById, hr]; exact hu)
      | some ts' =>
        rw [hr] at hu
        simp only [Option.map_some'] at hu
        rcases List.mem_cons.mp hu with hu | hu
        · rw [hu]; exact ht
        · exact ih hnd.2 u (by rw [listDeleteById, hr]; exact hu)

theorem getTopExpenses_subset (s : EngineState) (k : ℤ) :
    ∀ t ∈ (getTopExpenses s k).1, t ∈ s.transactionList ∧ t.type = "expense" := by
  intro t ht
  obtain ⟨hbPH, hbperm⟩ :=
    buildHeap_correct (fun u => u.amount) (filterByType s.transactionList "expense")
  obtain ⟨_, hmem, _, _⟩ :=
    getTopK_correct (fun u => u.amount)
      (buildHeap (fun u => u.amount) (filterByType s.transactionList "expense")) hbPH k
  have h1 : t ∈ filterByType s.transactionList "expense" :=
    hbperm.mem_iff.mp (hmem t ht)
  rw [filterByType, List.mem_filter] at h1
  exact ⟨h1.1, by simpa using h1.2⟩

/-! ## Claim C6 — top-K expenses -/

/-- **C6.** `getTopExpenses k`: `k ≤ 0` yields the empty sequence; `k`
greater than the number of expenses yields all of them, sorted descending
by amount; every returned transaction is an expense currently in the
ledger, so after `deleteTransaction id` (on a duplicate-free ledger) no
returned transaction carries the deleted id. -/
theorem claim_C6 :
    (∀ (s : EngineState) (k : ℤ), k ≤ 0 → (getTopExpenses s k).1 = [])
    ∧ (∀ (s : EngineState) (k : ℤ),
        ((filterByType s.transactionList "expense").length : ℤ) < k →
        (getTopExpenses s k).1.Perm (filterByType s.transactionList "expense")
        ∧ (getTopExpenses s k).1.Pairwise (fun a b => b.amount ≤ a.amount))
    ∧ (∀ (s : EngineState) (k : ℤ), ∀ t ∈ (getTopExpenses s k).1,
        t ∈ s.transactionList ∧ t.type = "expense")
    ∧ (∀ (s s' : EngineState) (id : String) (k : ℤ),
        deleteTransaction s id = (true, s') →
        (s.transactionList.map Transaction.id).Nodup →
        ∀ t ∈ (getTopExpenses s' k).1, t.id ≠ id) := by
  refine ⟨?_, ?_, getTopExpenses_subset, ?_⟩
  · intro s k hk
    obtain ⟨hbPH, _⟩ :=
      buildHeap_correct (fun u => u.amount) (filterByType s.transactionList "expense")
    obtain ⟨hk0, _, _, _⟩ :=
      getTopK_correct (fun u => u.amount)
        (buildHeap (fun u => u.amount) (filterByType s.transactionList "expense")) hbPH k
    exact hk0 hk
  · intro s k hk
    obtain ⟨hbPH, hbperm⟩ :=
      buildHeap_correct (fun u => u.amount) (filterByType s.transactionList "expense")
    obtain ⟨_, _, hpw, hperm⟩ :=
      getTopK_correct (fun u => u.amount)
        (buildHeap (fun u => u.amount) (filterByType s.transactionList "expense")) hbPH k
    have hlen : ((buildHeap (fun u => u.amount)
        (filterByType s.transactionList "expense")).length : ℤ) ≤ k := by
      rw [hbperm.length_eq]
      omega
    exact ⟨(hperm hlen).trans hbperm, hpw⟩
  · intro s s' id k hdel hnd t ht
    cases hfind : s.transactionBST.findById id with
    | none => simp [deleteTransaction, hfind] at hdel
    | some t0 =>
      simp only [deleteTransaction, hfind, Prod.mk.injEq, true_and] at hdel
      have hlist : s'.transactionList = listDeleteById s.transactionList id := by
        rw [← hdel, uet_transactionList]
      have hmem := (getTopExpenses_subset s' k t ht).1
      rw [hlist] at hmem
      exact listDeleteById_ne id s.transactionList hnd t hmem

/-- Witness for C6: `k = 0` yields the empty sequence on a fresh engine. -/
theorem claim_C6_witness : (getTopExpenses initState 0).1 = [] :=
  claim_C6.1 initState 0 (by decide)

/-! ## Claim C10 — top categories are strictly positive -/

theorem mapLookup_of_mem_nodup {V : Type} (k : String) (v : V) :
    ∀ (m : List (String × V)), (m.map Prod.fst).Nodup → (k, v) ∈ m →
      mapLookup m k = some v := by
  intro m
  induction m with
  | nil => intro _ h; simp at h
  | cons p ps ih =>
    intro hnd hmem
    simp only [List.map_cons, List.nodup_cons] at hnd
    rcases List.mem_cons.mp hmem with hmem | hmem
    · rw [mapLookup, if_pos (by rw [← hmem])]
      rw [← hmem]
    · by_cases hp : p.1 = k
      · exfalso
        have hk : k ∈ ps.map Prod.fst := List.mem_map_of_mem Prod.fst hmem
        rw [← hp] at hk
        exact hnd.1 hk
      · rw [mapLookup, if_neg hp]
        exact ih hnd.2 hmem

/-- **C10.** `getTopCategories k` only returns categories whose current
running expense total is strictly positive (a category whose expenses were
all deleted has total clamped to 0 and is excluded for every `k`). -/
theorem claim_C10 (s : EngineState) (k : ℤ)
    (hkeys : (s.expenseMap.map Prod.fst).Nodup) :
    ∀ ca ∈ (getTopCategories s k).1,
      0 < ca.totalAmount ∧ mapLookup s.expenseMap ca.category = some ca.totalAmount := by
  intro ca hca
  have hb := buildHeap_correct (fun c : CategoryAmount => c.totalAmount)
    (s.expenseMap.filterMap
      (fun p => if 0 < p.2 then some (⟨p.1, p.2⟩ : CategoryAmount) else none))
  have hbPH := hb.1
  have hbperm := hb.2
  have hg := getTopK_correct (fun c : CategoryAmount => c.totalAmount)
    (buildHeap (fun c : CategoryAmount => c.totalAmount)
      (s.expenseMap.filterMap
        (fun p => if 0 < p.2 then some (⟨p.1, p.2⟩ : CategoryAmount) else none))) hbPH k
  have hmem := hg.2.1
  have h1 : ca ∈ s.expenseMap.filterMap
      (fun p => if 0 < p.2 then some (⟨p.1, p.2⟩ : CategoryAmount) else none) :=
    hbperm.mem_iff.mp (hmem ca hca)
  rw [List.mem_filterMap] at h1
  obtain ⟨p, hp, hpeq⟩ := h1
  by_cases h2 : 0 < p.2
  · rw [if_pos h2] at hpeq
    injection hpeq with hpeq
    rw [← hpeq]
    exact ⟨h2, mapLookup_of_mem_nodup p.1 p.2 s.expenseMap hkeys hp⟩
  · rw [if_neg h2] at hpeq
    exact absurd hpeq (by simp)

/-- Witness for C10: the one positive category is returned with its total,
and that total is strictly positive. -/
theorem claim_C10_witness :
    0 < (CategoryAmount.mk "Gym" 5).totalAmount
      ∧ mapLookup gymState.expenseMap (CategoryAmount.mk "Gym" 5).category
          = some (CategoryAmount.mk "Gym" 5).totalAmount :=
  claim_C10 gymState 1 (by decide) (CategoryAmount.mk "Gym" 5) (by decide)

end FinanceDSA

namespace FinanceDSA

/-! ## Map and state-projection lemmas (claims C2 and C1) -/

theorem mapLookup_insert_self {V : Type} (k : String) (v : V) :
    ∀ m : List (String × V), mapLookup (mapInsert m k v) k = some v := by
  intro m
  induction m with
  | nil => simp [mapInsert, mapLookup]
  | cons p ps ih =>
    by_cases h : p.1 = k
    · simp [mapInsert, h, mapLookup]
    · simp [mapInsert, h, mapLookup, ih]

theorem mapLookup_insert_ne {V : Type} (k c : String) (v : V) (hck : c ≠ k) :
    ∀ m : List (String × V), mapLookup (mapInsert m k v) c = mapLookup m c := by
  intro m
  have hkc : ¬ ((k, v).1 = c) := fun hc => hck hc.symm
  induction m with
  | nil =>
    show mapLookup [(k, v)] c = mapLookup [] c
    simp [mapLookup, hkc]
  | cons p ps ih =>
    by_cases h : p.1 = k
    · have h2 : ¬ (p.1 = c) := by rw [h]; exact fun hc => hck hc.symm
      rw [mapInsert, if_pos h, mapLookup, if_neg hkc, mapLookup, if_neg h2]
    · rw [mapInsert, if_neg h, mapLookup, mapLookup]
      by_cases hpc : p.1 = c
      · rw [if_pos hpc, if_pos hpc]
      · rw [if_neg hpc, if_neg hpc, ih]

theorem mapLookup_update_of_some {V : Type} (k : String) (v b : V) :
    ∀ m : List (String × V), mapLookup m k = some b →
      mapLookup (mapUpdate m k v) k = some v := by
  intro m
  induction m with
  | nil => intro h; simp [mapLookup] at h
  | cons p ps ih =>
    intro h
    by_cases hp : p.1 = k
    · rw [mapUpdate, if_pos hp, mapLookup, if_pos rfl]
    · rw [mapLookup, if_neg hp] at h
      rw [mapUpdate, if_neg hp, mapLookup, if_neg hp]
      exact ih h

theorem mapLookup_update_ne {V : Type} (k c : String) (v : V) (hck : c ≠ k) :
    ∀ m : List (String × V), mapLookup (mapUpdate m k v) c = mapLookup m c := by
  intro m
  induction m with
  | nil => rw [mapUpdate]
  | cons p ps ih =>
    by_cases h : p.1 = k
    · have hkc : ¬ ((k, v).1 = c) := fun hc => hck hc.symm
      have h2 : ¬ (p.1 = c) := by rw [h]; exact fun hc => hck hc.symm
      rw [mapUpdate, if_pos h, mapLookup, if_neg hkc, mapLookup, if_neg h2]
    · rw [mapUpdate, if_neg h, mapLookup, mapLookup]
      by_cases hpc : p.1 = c
      · rw [if_pos hpc, if_pos hpc]
      · rw [if_neg hpc, if_neg hpc, ih]

theorem uet_undoStack (s : EngineState) (t : Transaction) (b : Bool) :
    (updateExpenseTracking s t b).undoStack = s.undoStack := by
  rw [updateExpenseTracking]
  by_cases h : t.type ≠ "expense"
  · rw [if_pos h]
  · rw [if_neg h]
    cases hl : mapLookup s.budgetMap t.category <;> simp [hl]

theorem uet_transactionBST (s : EngineState) (t : Transaction) (b : Bool) :
    (updateExpenseTracking s t b).transactionBST = s.transactionBST := by
  rw [updateExpenseTracking]
  by_cases h : t.type ≠ "expense"
  · rw [if_pos h]
  · rw [if_neg h]
    cases hl : mapLookup s.budgetMap t.category <;> simp [hl]

theorem uet_billQueue (s : EngineState) (t : Transaction) (b : Bool) :
    (updateExpenseTracking s t b).billQueue = s.billQueue := by
  rw [updateExpenseTracking]
  by_cases h : t.type ≠ "expense"
  · rw [if_pos h]
  · rw [if_neg h]
    cases hl : mapLookup s.budgetMap t.category <;> simp [hl]

theorem uet_nonexpense (s : EngineState) (t : Transaction) (b : Bool)
    (ht : t.type ≠ "expense") : updateExpenseTracking s t b = s := by
  rw [updateExpenseTracking, if_pos ht]

theorem uet_budgetMap_expense (s : EngineState) (t : Transaction) (b : Bool)
    (ht : t.type = "expense") :
    (updateExpenseTracking s t b).budgetMap
      = match mapLookup s.budgetMap t.category with
        | some bg => mapUpdate s.budgetMap t.category
            { bg with spent := if b then mapD s.expenseMap t.category + t.amount
                               else max 0 (mapD s.expenseMap t.category - t.amount) }
        | none => s.budgetMap := by
  rw [updateExpenseTracking, if_neg (by simp [ht])]
  cases hl : mapLookup s.budgetMap t.category <;> simp [hl]

theorem uet_expenseMap_expense (s : EngineState) (t : Transaction) (b : Bool)
    (ht : t.type = "expense") :
    (updateExpenseTracking s t b).expenseMap
      = mapInsert s.expenseMap t.category
          (if b then mapD s.expenseMap t.category + t.amount
           else max 0 (mapD s.expenseMap t.category - t.amount)) := by
  rw [updateExpenseTracking, if_neg (by simp [ht])]
  cases hl : mapLookup s.budgetMap t.category <;> simp [hl]

theorem uet_maps_congr (s s' : EngineState) (t : Transaction) (b : Bool)
    (hbm : s.budgetMap = s'.budgetMap) (hem : s.expenseMap = s'.expenseMap) :
    (updateExpenseTracking s t b).budgetMap = (updateExpenseTracking s' t b).budgetMap
    ∧ (updateExpenseTracking s t b).expenseMap = (updateExpenseTracking s' t b).expenseMap := by
  by_cases ht : t.type = "expense"
  · constructor
    · rw [uet_budgetMap_expense s t b ht, uet_budgetMap_expense s' t b ht, hbm, hem]
    · rw [uet_expenseMap_expense s t b ht, uet_expenseMap_expense s' t b ht, hem]
  · rw [uet_nonexpense s t b ht, uet_nonexpense s' t b ht]
    exact ⟨hbm, hem⟩

/-! Projections of `addTransaction`. -/

theorem addT_transactionList (s : EngineState) (id ty : String) (amount : ℚ)
    (category description date : String) :
    (addTransaction s id ty amount category description date).2.transactionList
      = (⟨id, ty, amount, category, description, date⟩ : Transaction) :: s.transactionList := by
  rw [addTransaction]
  dsimp only
  split <;> simp [uet_transactionList]

theorem addT_transactionBST (s : EngineState) (id ty : String) (amount : ℚ)
    (category description date : String) :
    (addTransaction s id ty amount category description date).2.transactionBST
      = s.transactionBST.insert (⟨id, ty, amount, category, description, date⟩ : Transaction) := by
  rw [addTransaction]
  dsimp only
  split <;> simp [uet_transactionBST]

theorem addT_undoStack (s : EngineState) (id ty : String) (amount : ℚ)
    (category description date : String) :
    (addTransaction s id ty amount category description date).2.undoStack
      = stackPushCap undoCap s.undoStack
          (Action.ADD_TRANSACTION (⟨id, ty, amount, category, description, date⟩ : Transaction)) := by
  rw [addTransaction]
  dsimp only
  split <;> simp [uet_undoStack]

theorem addT_budgetMap (s : EngineState) (id ty : String) (amount : ℚ)
    (category description date : String) :
    (addTransaction s id ty amount category description date).2.budgetMap
      = (updateExpenseTracking s
          (⟨id, ty, amount, category, description, date⟩ : Transaction) true).budgetMap := by
  rw [addTransaction]
  dsimp only
  split <;> refine (uet_maps_congr _ _ _ true ?_ ?_).1 <;> rfl

theorem addT_expenseMap (s : EngineState) (id ty : String) (amount : ℚ)
    (category description date : String) :
    (addTransaction s id ty amount category description date).2.expenseMap
      = (updateExpenseTracking s
          (⟨id, ty, amount, category, description, date⟩ : Transaction) true).expenseMap := by
  rw [addTransaction]
  dsimp only
  split <;> refine (uet_maps_congr _ _ _ true ?_ ?_).2 <;> rfl

end FinanceDSA

namespace FinanceDSA

/-! ## Finding a freshly inserted transaction (claim C2) -/

theorem findFirstById_eq_none (i : String) :
    ∀ l : List Transaction, (∀ u ∈ l, u.id ≠ i) → findFirstById l i = none := by
  intro l
  induction l with
  | nil => intro _; rfl
  | cons t ts ih =>
    intro h
    rw [findFirstById, if_neg (h t (List.mem_cons_self t ts))]
    exact ih (fun u hu => h u (List.mem_cons_of_mem t hu))

theorem findFirstById_append (i : String) :
    ∀ l1 l2 : List Transaction, findFirstById l1 i = none →
      findFirstById (l1 ++ l2) i = findFirstById l2 i := by
  intro l1 l2
  induction l1 with
  | nil => intro _; rfl
  | cons t ts ih =>
    intro h
    rw [findFirstById] at h
    by_cases ht : t.id = i
    · rw [if_pos ht] at h; exact absurd h (by simp)
    · rw [if_neg ht] at h
      rw [List.cons_append, findFirstById, if_neg ht]
      exact ih h

theorem findById_eq_none (i : String) :
    ∀ b : BST, (∀ u ∈ b.inorder, u.id ≠ i) → b.findById i = none := by
  intro b
  induction b with
  | leaf => intro _; rfl
  | node l d txns r ihl ihr =>
    intro h
    have hl : ∀ u ∈ l.inorder, u.id ≠ i := fun u hu => h u (by
      rw [BST.inorder]; exact List.mem_append.mpr (Or.inl (List.mem_append.mpr (Or.inl hu))))
    have htx : ∀ u ∈ txns, u.id ≠ i := fun u hu => h u (by
      rw [BST.inorder]; exact List.mem_append.mpr (Or.inl (List.mem_append.mpr (Or.inr hu))))
    have hr : ∀ u ∈ r.inorder, u.id ≠ i := fun u hu => h u (by
      rw [BST.inorder]; exact List.mem_append.mpr (Or.inr hu))
    rw [BST.findById, findFirstById_eq_none i txns htx, ihl hl, ihr hr]

theorem findById_insert_fresh (t : Transaction) :
    ∀ b : BST, (∀ u ∈ b.inorder, u.id ≠ t.id) →
      (b.insert t).findById t.id = some t := by
  intro b
  induction b with
  | leaf => simp [BST.insert, BST.findById, findFirstById]
  | node l d txns r ihl ihr =>
    intro h
    have hl : ∀ u ∈ l.inorder, u.id ≠ t.id := fun u hu => h u (by
      rw [BST.inorder]; exact List.mem_append.mpr (Or.inl (List.mem_append.mpr (Or.inl hu))))
    have htx : ∀ u ∈ txns, u.id ≠ t.id := fun u hu => h u (by
      rw [BST.inorder]; exact List.mem_append.mpr (Or.inl (List.mem_append.mpr (Or.inr hu))))
    have hr : ∀ u ∈ r.inorder, u.id ≠ t.id := fun u hu => h u (by
      rw [BST.inorder]; exact List.mem_append.mpr (Or.inr hu))
    rw [BST.insert]
    by_cases h1 : strLtB t.date d
    · rw [if_pos h1, BST.findById, findFirstById_eq_none t.id txns htx, ihl hl]
    · rw [if_neg h1]
      by_cases h2 : strLtB d t.date
      · rw [if_pos h2, BST.findById, findFirstById_eq_none t.id txns htx,
          findById_eq_none t.id l hl, ihr hr]
      · rw [if_neg h2, BST.findById,
          findFirstById_append t.id txns [t] (findFirstById_eq_none t.id txns htx)]
        rw [findFirstById, if_pos rfl]

/-! ## Characterizations of `deleteTransaction` and `undo` steps -/

theorem deleteTransaction_found (s : EngineState) (id : String) (t : Transaction)
    (hfind : s.transactionBST.findById id = some t) :
    deleteTransaction s id = (true, updateExpenseTracking
      { s with
          undoStack := stackPushCap undoCap s.undoStack (Action.DELETE_TRANSACTION t)
          transactionList := listDeleteById s.transactionList id
          transactionBST := s.transactionBST.deleteById id } t false) := by
  rw [deleteTransaction]
  rw [hfind]

theorem undo_add_step (s : EngineState) (t : Transaction) (rest : List Action)
    (hs : s.undoStack = Action.ADD_TRANSACTION t :: rest) :
    undo s = (true,
      { (deleteTransaction { s with undoStack := rest } t.id).2 with
          undoStack := (deleteTransaction { s with undoStack := rest } t.id).2.undoStack.tail }) := by
  rw [undo, hs]

theorem isEmpty_false_of_pos {γ : Type} (l : List γ) (h : 0 < l.length) :
    l.isEmpty = false := by
  cases l with
  | nil => simp at h
  | cons a as => rfl

/-! ## Claim C2 — add-then-undo round trip -/

/-- **C2.** On any engine state (fresh generated id, ledger/BST ids in sync
with the invariant that budget `spent` mirrors the running total, which is
nonnegative, and the log within its bound), `addTransaction` immediately
followed by `undo()` restores `getAllTransactions`, `getTotalBalance` and
`getBudget(category).spent`, leaves `canUndo` as before the add, and leaves
no residual undo entry (the log is exactly as before when below capacity,
resp. the pre-add log minus its trimmed oldest entry at capacity). -/
theorem claim_C2 (s : EngineState) (id ty : String) (amount : ℚ)
    (category description date : String)
    (hfresh_bst : ∀ u ∈ s.transactionBST.inorder, u.id ≠ id)
    (hspent : ∀ b, getBudget s category = some b → b.spent = mapD s.expenseMap category)
    (hnn : 0 ≤ mapD s.expenseMap category)
    (hcap : s.undoStack.length ≤ undoCap) :
    getAllTransactions (undo (addTransaction s id ty amount category description date).2).2
        = getAllTransactions s
    ∧ getTotalBalance (undo (addTransaction s id ty amount category description date).2).2
        = getTotalBalance s
    ∧ (getBudget (undo (addTransaction s id ty amount category description date).2).2 category).map
        Budget.spent = (getBudget s category).map Budget.spent
    ∧ canUndo (undo (addTransaction s id ty amount category description date).2).2 = canUndo s
    ∧ (undo (addTransaction s id ty amount category description date).2).2.undoStack
        = (if s.undoStack.length < undoCap then s.undoStack else s.undoStack.dropLast) := by
  set t : Transaction := ⟨id, ty, amount, category, description, date⟩ with htdef
  set s1 := (addTransaction s id ty amount category description date).2 with hs1
  have hs1list : s1.transactionList = t :: s.transactionList := addT_transactionList ..
  have hs1bst : s1.transactionBST = s.transactionBST.insert t := addT_transactionBST ..
  have hs1stack : s1.undoStack
      = stackPushCap undoCap s.undoStack (Action.ADD_TRANSACTION t) := addT_undoStack ..
  have hs1bm : s1.budgetMap = (updateExpenseTracking s t true).budgetMap := addT_budgetMap ..
  have hs1em : s1.expenseMap = (updateExpenseTracking s t true).expenseMap := addT_expenseMap ..
  -- the trimmed remainder of the log under the capacity push
  set rest := if undoCap ≤ s.undoStack.length then s.undoStack.dropLast else s.undoStack
    with hrest
  have hrestlen : rest.length < undoCap := by
    rw [hrest]
    split_ifs with h1
    · rw [List.length_dropLast]; rw [undoCap] at *; omega
    · omega
  have htrim : stackPushCap undoCap s.undoStack (Action.ADD_TRANSACTION t)
      = Action.ADD_TRANSACTION t :: rest := by
    simp only [stackPushCap]
    congr 1
    split_ifs with h1 h2
    · rw [hrest, if_pos h1]
    · rw [undoCap] at *; omega
    · rw [hrest, if_neg h1]
  have hundo := undo_add_step s1 t rest (by rw [hs1stack, htrim])
  -- the state undo's deleteTransaction call operates on
  set sd : EngineState := { s1 with undoStack := rest } with hsd
  have hsdfind : sd.transactionBST.findById t.id = some t := by
    show s1.transactionBST.findById t.id = some t
    rw [hs1bst]
    exact findById_insert_fresh t s.transactionBST hfresh_bst
  have hdel := deleteTransaction_found sd t.id t hsdfind
  -- the post-delete state
  set sf : EngineState := updateExpenseTracking
      { sd with
          undoStack := stackPushCap undoCap sd.undoStack (Action.DELETE_TRANSACTION t)
          transactionList := listDeleteById sd.transactionList t.id
          transactionBST := sd.transactionBST.deleteById t.id } t false with hsf
  have hfinal : (undo s1).2 = { sf with undoStack := sf.undoStack.tail } := by
    rw [hundo]
    dsimp only
    rw [hdel]
  -- list restoration
  have hdellist : listDeleteById sd.transactionList t.id = s.transactionList := by
    show listDeleteById s1.transactionList t.id = s.transactionList
    rw [hs1list, listDeleteById, removeFirstById, if_pos rfl]
  have hsflist : sf.transactionList = s.transactionList := by
    rw [hsf, uet_transactionList]
    exact hdellist
  -- stack restoration
  have hsfstack : sf.undoStack = Action.DELETE_TRANSACTION t :: rest := by
    rw [hsf, uet_undoStack]
    show stackPushCap undoCap rest (Action.DELETE_TRANSACTION t) = _
    simp only [stackPushCap]
    rw [if_neg (by omega)]
  refine ⟨?_, ?_, ?_, ?_, ?_⟩
  · show (undo s1).2.transactionList = s.transactionList
    rw [hfinal]
    exact hsflist
  · show getTotalBalance (undo s1).2 = getTotalBalance s
    rw [getTotalBalance, getTotalBalance, hfinal]
    show sf.transactionList.foldr _ 0 = _
    rw [hsflist]
  · -- budget spent restoration
    show (mapLookup (undo s1).2.budgetMap category).map Budget.spent
        = (mapLookup s.budgetMap category).map Budget.spent
    have hbmf : (undo s1).2.budgetMap = sf.budgetMap := by rw [hfinal]
    rw [hbmf]
    by_cases hty : ty = "expense"
    · have httype : t.type = "expense" := hty
      have htcat : t.category = category := rfl
      have htamt : t.amount = amount := rfl
      -- maps after the add
      have hem1 : sd.expenseMap = mapInsert s.expenseMap category
          (mapD s.expenseMap category + amount) := by
        show s1.expenseMap = _
        rw [hs1em, uet_expenseMap_expense s t true httype, htcat, htamt, if_pos rfl]
      have hbm1 : sd.budgetMap
          = match mapLookup s.budgetMap category with
            | some bg => mapUpdate s.budgetMap category
                { bg with spent := mapD s.expenseMap category + amount }
            | none => s.budgetMap := by
        show s1.budgetMap = _
        rw [hs1bm, uet_budgetMap_expense s t true httype, htcat, htamt]
        cases mapLookup s.budgetMap category <;> simp
      have hcur1 : mapD sd.expenseMap category = mapD s.expenseMap category + amount := by
        rw [hem1, mapD, mapLookup_insert_self]
        rfl
      have hsfbm : sf.budgetMap
          = match mapLookup sd.budgetMap category with
            | some bg => mapUpdate sd.budgetMap category
                { bg with spent := max 0 (mapD sd.expenseMap category - amount) }
            | none => sd.budgetMap := by
        rw [hsf, uet_budgetMap_expense _ t false httype, htcat, htamt]
        have hsdbm : ({ sd with
            undoStack := stackPushCap undoCap sd.undoStack (Action.DELETE_TRANSACTION t)
            transactionList := listDeleteById sd.transactionList t.id
            transactionBST := sd.transactionBST.deleteById t.id } : EngineState).budgetMap
            = sd.budgetMap := rfl
        have hsdem : ({ sd with
            undoStack := stackPushCap undoCap sd.undoStack (Action.DELETE_TRANSACTION t)
            transactionList := listDeleteById sd.transactionList t.id
            transactionBST := sd.transactionBST.deleteById t.id } : EngineState).expenseMap
            = sd.expenseMap := rfl
        rw [hsdbm, hsdem]
        simp
      have hrestore : max 0 (mapD sd.expenseMap category - amount)
          = mapD s.expenseMap category := by
        rw [hcur1]
        have : mapD s.expenseMap category + amount - amount = mapD s.expenseMap category := by
          ring
        rw [this]
        exact max_eq_right hnn
      cases horig : mapLookup s.budgetMap category with
      | none =>
        have hbm1' : sd.budgetMap = s.budgetMap := by
          have h0 := hbm1
          rw [horig] at h0
          simpa using h0
        have hsfbm' : sf.budgetMap = s.budgetMap := by
          have h0 := hsfbm
          rw [hbm1', horig] at h0
          simpa using h0
        rw [hsfbm', horig]
      | some b0 =>
        have hb0spent : b0.spent = mapD s.expenseMap category :=
          hspent b0 (by rw [getBudget]; exact horig)
        have hbm1' : sd.budgetMap = mapUpdate s.budgetMap category
            { b0 with spent := mapD s.expenseMap category + amount } := by
          have h0 := hbm1
          rw [horig] at h0
          simpa using h0
        have hlk1 : mapLookup sd.budgetMap category
            = some { b0 with spent := mapD s.expenseMap category + amount } := by
          rw [hbm1']
          exact mapLookup_update_of_some category _ b0 s.budgetMap horig
        have hsfbm' : sf.budgetMap = mapUpdate sd.budgetMap category
            { b0 with spent := max 0 (mapD sd.expenseMap category - amount) } := by
          have h0 := hsfbm
          rw [hlk1] at h0
          simpa using h0
        have hlkf : mapLookup sf.budgetMap category
            = some { b0 with spent := max 0 (mapD sd.expenseMap category - amount) } := by
          rw [hsfbm']
          exact mapLookup_update_of_some category _ _ sd.budgetMap hlk1
        rw [hlkf, hrestore]
        simp [hb0spent]
    · -- non-expense: the budget maps are never touched
      have httype : t.type ≠ "expense" := hty
      have hbm1 : sd.budgetMap = s.budgetMap := by
        show s1.budgetMap = s.budgetMap
        rw [hs1bm, uet_nonexpense s t true httype]
      have hsfbm : sf.budgetMap = s.budgetMap := by
        rw [hsf, uet_nonexpense _ t false httype]
        exact hbm1
      rw [hsfbm]
  · -- canUndo restoration
    show canUndo (undo s1).2 = canUndo s
    rw [canUndo, canUndo, hfinal]
    show (!sf.undoStack.tail.isEmpty) = _
    rw [hsfstack]
    show (!rest.isEmpty) = (!s.undoStack.isEmpty)
    rw [hrest]
    split_ifs with h1
    · have h2 : 0 < s.undoStack.length := by rw [undoCap] at h1; omega
      have h3 : 0 < s.undoStack.dropLast.length := by
        rw [List.length_dropLast]; rw [undoCap] at h1; omega
      rw [isEmpty_false_of_pos _ h3, isEmpty_false_of_pos _ h2]
    · rfl
  · -- explicit final log
    show (undo s1).2.undoStack = _
    rw [hfinal]
    show sf.undoStack.tail = _
    rw [hsfstack]
    show rest = _
    rw [hrest]
    split_ifs with h1 h2 <;> first | rfl | omega


/-- Witness for C2: on `budgetState` (a "Food" budget of limit 100, empty
ledger), adding a fresh 50-expense with id "x" and undoing restores the
ledger, balance, "Food" spent and `canUndo`, with the log back to its
pre-add contents. -/
theorem claim_C2_witness :
    getAllTransactions (undo (addTransaction budgetState "x" "expense" 50 "Food" "" "2024-02-01").2).2
        = getAllTransactions budgetState
    ∧ getTotalBalance (undo (addTransaction budgetState "x" "expense" 50 "Food" "" "2024-02-01").2).2
        = getTotalBalance budgetState
    ∧ (getBudget (undo (addTransaction budgetState "x" "expense" 50 "Food" "" "2024-02-01").2).2 "Food").map
        Budget.spent = (getBudget budgetState "Food").map Budget.spent
    ∧ canUndo (undo (addTransaction budgetState "x" "expense" 50 "Food" "" "2024-02-01").2).2
        = canUndo budgetState
    ∧ (undo (addTransaction budgetState "x" "expense" 50 "Food" "" "2024-02-01").2).2.undoStack
        = (if budgetState.undoStack.length < undoCap then budgetState.undoStack
           else budgetState.undoStack.dropLast) :=
  claim_C2 budgetState "x" "expense" 50 "Food" "" "2024-02-01"
    (by decide)
    (by
      intro b hb
      have h : some (⟨"Food", 100, 0⟩ : Budget) = some b := hb
      injection h with h
      rw [← h]
      rfl)
    (by decide)
    (by decide)

end FinanceDSA

namespace FinanceDSA

/-! ## Map and list lemmas for the budget-sync invariant (claim C1) -/

theorem mapUpdate_map_fst {V : Type} (k : String) (v : V) :
    ∀ m : List (String × V), (mapUpdate m k v).map Prod.fst = m.map Prod.fst := by
  intro m
  induction m with
  | nil => rfl
  | cons p ps ih =>
    by_cases h : p.1 = k
    · rw [mapUpdate, if_pos h, List.map_cons, List.map_cons, h]
    · rw [mapUpdate, if_neg h, List.map_cons, List.map_cons, ih]

theorem mem_mapInsert_fst {V : Type} (k x : String) (v : V) :
    ∀ m : List (String × V), x ∈ (mapInsert m k v).map Prod.fst →
      x ∈ m.map Prod.fst ∨ x = k := by
  intro m
  induction m with
  | nil =>
    intro h
    simp [mapInsert] at h
    exact Or.inr h
  | cons p ps ih =>
    intro h
    by_cases hp : p.1 = k
    · rw [mapInsert, if_pos hp, List.map_cons] at h
      rcases List.mem_cons.mp h with h | h
      · exact Or.inr h
      · exact Or.inl (List.mem_cons_of_mem _ h)
    · rw [mapInsert, if_neg hp, List.map_cons] at h
      rcases List.mem_cons.mp h with h | h
      · exact Or.inl (by rw [List.map_cons]; exact h ▸ List.mem_cons_self _ _)
      · rcases ih h with h | h
        · exact Or.inl (List.mem_cons_of_mem _ h)
        · exact Or.inr h

theorem nodup_mapInsert {V : Type} (k : String) (v : V) :
    ∀ m : List (String × V), (m.map Prod.fst).Nodup →
      ((mapInsert m k v).map Prod.fst).Nodup := by
  intro m
  induction m with
  | nil => intro _; simp [mapInsert]
  | cons p ps ih =>
    intro hnd
    rw [List.map_cons, List.nodup_cons] at hnd
    by_cases hp : p.1 = k
    · rw [mapInsert, if_pos hp, List.map_cons, List.nodup_cons]
      exact ⟨by rw [← hp]; exact hnd.1, hnd.2⟩
    · rw [mapInsert, if_neg hp, List.map_cons, List.nodup_cons]
      refine ⟨fun hmem => ?_, ih hnd.2⟩
      rcases mem_mapInsert_fst k p.1 v ps hmem with h | h
      · exact hnd.1 h
      · exact hp h

theorem mapRemove_sublist {V : Type} (k : String) :
    ∀ m : List (String × V), List.Sublist (mapRemove m k) m := by
  intro m
  induction m with
  | nil => exact List.Sublist.refl _
  | cons p ps ih =>
    by_cases hp : p.1 = k
    · rw [mapRemove, if_pos hp]
      exact List.sublist_cons_self p ps
    · rw [mapRemove, if_neg hp]
      exact ih.cons₂ p

theorem mapLookup_mem {V : Type} (k : String) (v : V) :
    ∀ m : List (String × V), mapLookup m k = some v → (k, v) ∈ m := by
  intro m
  induction m with
  | nil => intro h; exact absurd h (by simp [mapLookup])
  | cons p ps ih =>
    intro h
    by_cases hp : p.1 = k
    · rw [mapLookup, if_pos hp] at h
      injection h with h
      have hkv : (k, v) = p := by rw [← hp, ← h]
      rw [hkv]
      exact List.mem_cons_self p ps
    · rw [mapLookup, if_neg hp] at h
      exact List.mem_cons_of_mem _ (ih h)

theorem mapD_insert_self (k : String) (v : ℚ) (m : List (String × ℚ)) :
    mapD (mapInsert m k v) k = v := by
  rw [mapD, mapLookup_insert_self]
  rfl

theorem mapD_insert_ne (k c : String) (v : ℚ) (hck : c ≠ k) (m : List (String × ℚ)) :
    mapD (mapInsert m k v) c = mapD m c := by
  rw [mapD, mapLookup_insert_ne k c v hck, mapD]

/-! ## `expenseSum` lemmas -/

theorem expenseSum_eq_sum (l : List Transaction) (c : String) :
    expenseSum l c
      = ((l.filter (fun t => t.type = "expense" ∧ t.category = c)).map
          Transaction.amount).sum := by
  rw [expenseSum]
  induction l.filter (fun t => t.type = "expense" ∧ t.category = c) with
  | nil => rfl
  | cons t ts ih => simp [List.foldr_cons, ih]

theorem expenseSum_perm {l₁ l₂ : List Transaction} (h : l₁.Perm l₂) (c : String) :
    expenseSum l₁ c = expenseSum l₂ c := by
  rw [expenseSum_eq_sum, expenseSum_eq_sum]
  exact ((h.filter _).map _).sum_eq

theorem expenseSum_cons (t : Transaction) (l : List Transaction) (c : String) :
    expenseSum (t :: l) c
      = (if t.type = "expense" ∧ t.category = c then t.amount else 0) + expenseSum l c := by
  rw [expenseSum, expenseSum, List.filter_cons]
  split_ifs with h1 h2 h3
  · rw [List.foldr_cons]
  · exact absurd (of_decide_eq_true h1) h2
  · exact absurd (decide_eq_true h3) (by simp [h1])
  · rw [zero_add]

theorem expenseSum_nonneg {l : List Transaction} (h : ∀ t ∈ l, 0 ≤ t.amount)
    (c : String) : 0 ≤ expenseSum l c := by
  induction l with
  | nil => exact le_refl 0
  | cons t ts ih =>
    rw [expenseSum_cons]
    refine add_nonneg ?_ (ih (fun u hu => h u (List.mem_cons_of_mem t hu)))
    split_ifs
    · exact h t (List.mem_cons_self t ts)
    · exact le_refl 0

/-! ## `delPayloadIds` and `stackPushCap` lemmas -/

theorem delPayloadIds_sublist {st' st : List Action} (h : List.Sublist st' st) :
    List.Sublist (delPayloadIds st') (delPayloadIds st) := h.filterMap _

theorem delPayloadIds_cons_nonDel (a : Action) (st : List Action)
    (h : ∀ t, a ≠ Action.DELETE_TRANSACTION t) :
    delPayloadIds (a :: st) = delPayloadIds st := by
  cases a with
  | DELETE_TRANSACTION t => exact absurd rfl (h t)
  | ADD_TRANSACTION t => simp [delPayloadIds, List.filterMap_cons]
  | ADD_BUDGET c l => simp [delPayloadIds, List.filterMap_cons]
  | UPDATE_BUDGET c l => simp [delPayloadIds, List.filterMap_cons]
  | ADD_BILL b => simp [delPayloadIds, List.filterMap_cons]
  | DELETE_BILL b => simp [delPayloadIds, List.filterMap_cons]
  | PAY_BILL i => simp [delPayloadIds, List.filterMap_cons]

theorem delPayloadIds_cons_del (t : Transaction) (st : List Action) :
    delPayloadIds (Action.DELETE_TRANSACTION t :: st) = t.id :: delPayloadIds st := by
  simp [delPayloadIds, List.filterMap_cons]

theorem stackPushCap_shape (cap : ℕ) (st : List Action) (a : Action) :
    ∃ st1, stackPushCap cap st a = a :: st1 ∧ List.Sublist st1 st := by
  rw [stackPushCap]
  by_cases h1 : cap ≤ st.length
  · by_cases h2 : 2 ≤ st.length
    · exact ⟨st.dropLast, by simp [h1, h2], List.dropLast_sublist st⟩
    · exact ⟨st, by simp [h1, h2], List.Sublist.refl st⟩
  · exact ⟨st, by simp [h1], List.Sublist.refl st⟩

end FinanceDSA

namespace FinanceDSA

/-! ## `engineInv` transport and stack-only steps -/

theorem engineInv_congr (s1 s2 : EngineState)
    (hl : s2.transactionList = s1.transactionList)
    (hb : s2.transactionBST = s1.transactionBST)
    (hst : s2.undoStack = s1.undoStack)
    (hbm : s2.budgetMap = s1.budgetMap)
    (hem : s2.expenseMap = s1.expenseMap) :
    engineInv s1 → engineInv s2 := by
  intro h
  rw [engineInv] at h ⊢
  rw [usedIds] at h ⊢
  rw [hl, hb, hst, hbm, hem]
  exact h

theorem inv_stack_sublist (s : EngineState) (st' : List Action)
    (hsub : List.Sublist st' s.undoStack) (h : engineInv s) :
    engineInv { s with undoStack := st' } := by
  obtain ⟨hN, hP, hA, hD, hB, hE, hS⟩ := h
  refine ⟨?_, hP, hA, ?_, hB, hE, hS⟩
  · show (s.transactionList.map Transaction.id ++ delPayloadIds st').Nodup
    exact List.Nodup.sublist
      ((delPayloadIds_sublist hsub).append_left _) hN
  · intro a ha t hat
    exact hD a (hsub.subset ha) t hat

theorem inv_stack_push_nonDel (s : EngineState) (a : Action)
    (hnd : ∀ t, a ≠ Action.DELETE_TRANSACTION t) (h : engineInv s) :
    engineInv { s with undoStack := stackPushCap undoCap s.undoStack a } := by
  obtain ⟨st1, hshape, hsub⟩ := stackPushCap_shape undoCap s.undoStack a
  obtain ⟨hN, hP, hA, hD, hB, hE, hS⟩ := h
  refine ⟨?_, hP, hA, ?_, hB, hE, hS⟩
  · show (s.transactionList.map Transaction.id
        ++ delPayloadIds (stackPushCap undoCap s.undoStack a)).Nodup
    rw [hshape, delPayloadIds_cons_nonDel a st1 hnd]
    exact List.Nodup.sublist
      ((delPayloadIds_sublist hsub).append_left _) hN
  · intro a0 ha0 t hat
    rw [hshape] at ha0
    rcases List.mem_cons.mp ha0 with ha0 | ha0
    · exact absurd (ha0 ▸ hat) (hnd t)
    · exact hD a0 (hsub.subset ha0) t hat

theorem inv_set_budgetMap (s : EngineState) (m' : List (String × Budget))
    (h : engineInv s) (hkeys : (m'.map Prod.fst).Nodup)
    (hS' : ∀ c b, mapLookup m' c = some b → b.spent = mapD s.expenseMap c) :
    engineInv { s with budgetMap := m' } := by
  obtain ⟨hN, hP, hA, hD, _hB, hE, _hS⟩ := h
  exact ⟨hN, hP, hA, hD, hkeys, hE, hS'⟩

/-! ## `updateExpenseTracking` and the invariant's map conjuncts -/

theorem uet_budgetMap_keys (s : EngineState) (t : Transaction) (b : Bool) :
    ((updateExpenseTracking s t b).budgetMap.map Prod.fst)
      = s.budgetMap.map Prod.fst := by
  by_cases ht : t.type = "expense"
  · rw [uet_budgetMap_expense s t b ht]
    cases hl : mapLookup s.budgetMap t.category with
    | none => rfl
    | some bg => simp only [mapUpdate_map_fst]
  · rw [uet_nonexpense s t b ht]

theorem uet_mapD_ne (s : EngineState) (t : Transaction) (b : Bool) (c : String)
    (hc : c ≠ t.category) :
    mapD (updateExpenseTracking s t b).expenseMap c = mapD s.expenseMap c := by
  by_cases ht : t.type = "expense"
  · rw [uet_expenseMap_expense s t b ht, mapD_insert_ne _ _ _ hc]
  · rw [uet_nonexpense s t b ht]

theorem uet_mapD_self (s : EngineState) (t : Transaction) (b : Bool)
    (ht : t.type = "expense") :
    mapD (updateExpenseTracking s t b).expenseMap t.category
      = (if b then mapD s.expenseMap t.category + t.amount
         else max 0 (mapD s.expenseMap t.category - t.amount)) := by
  rw [uet_expenseMap_expense s t b ht, mapD_insert_self]

theorem uet_S (s : EngineState) (t : Transaction) (b : Bool)
    (hS : ∀ c bg, mapLookup s.budgetMap c = some bg → bg.spent = mapD s.expenseMap c) :
    ∀ c bg, mapLookup (updateExpenseTracking s t b).budgetMap c = some bg →
      bg.spent = mapD (updateExpenseTracking s t b).expenseMap c := by
  intro c bg hbg
  by_cases ht : t.type = "expense"
  · rw [uet_budgetMap_expense s t b ht] at hbg
    cases hl : mapLookup s.budgetMap t.category with
    | none =>
      rw [hl] at hbg
      simp only at hbg
      by_cases hc : c = t.category
      · rw [hc, hl] at hbg
        exact absurd hbg (by simp)
      · rw [uet_mapD_ne s t b c hc]
        exact hS c bg hbg
    | some b1 =>
      rw [hl] at hbg
      simp only at hbg
      by_cases hc : c = t.category
      · rw [hc] at hbg ⊢
        rw [mapLookup_update_of_some t.category _ b1 s.budgetMap hl] at hbg
        injection hbg with hbg
        rw [← hbg, uet_mapD_self s t b ht]
      · rw [mapLookup_update_ne t.category c _ hc] at hbg
        rw [uet_mapD_ne s t b c hc]
        exact hS c bg hbg
  · rw [uet_nonexpense s t b ht] at hbg ⊢
    exact hS c bg hbg

end FinanceDSA

namespace FinanceDSA

/-- Core preservation lemma: inserting a fresh, nonnegative transaction into
the ledger (at either end) and the BST, then re-syncing the expense
tracking, preserves the invariant.  Shared by `addTransaction`,
`loadTransaction` and the `DELETE_TRANSACTION` branch of `undo`. -/
theorem inv_insert_core (s : EngineState) (t : Transaction) (l' : List Transaction)
    (hl' : l'.Perm (t :: s.transactionList))
    (hfresh : t.id ∉ usedIds s) (hamt : 0 ≤ t.amount) (h : engineInv s) :
    engineInv (updateExpenseTracking
      { s with transactionList := l'
               transactionBST := s.transactionBST.insert t } t true) := by
  obtain ⟨hN, hP, hA, hD, hB, hE, hS⟩ := h
  refine ⟨?_, ?_, ?_, ?_, ?_, ?_, ?_⟩
  · show ((updateExpenseTracking _ t true).transactionList.map Transaction.id
        ++ delPayloadIds (updateExpenseTracking _ t true).undoStack).Nodup
    rw [uet_transactionList, uet_undoStack]
    show (l'.map Transaction.id ++ delPayloadIds s.undoStack).Nodup
    have hperm : (l'.map Transaction.id ++ delPayloadIds s.undoStack).Perm
        (t.id :: (s.transactionList.map Transaction.id ++ delPayloadIds s.undoStack)) := by
      have h1 := (hl'.map Transaction.id).append_right (delPayloadIds s.undoStack)
      simpa using h1
    exact (hperm.symm).nodup (List.nodup_cons.mpr ⟨hfresh, hN⟩)
  · show (updateExpenseTracking _ t true).transactionBST.inorder.Perm
        (updateExpenseTracking _ t true).transactionList
    rw [uet_transactionBST, uet_transactionList]
    show (s.transactionBST.insert t).inorder.Perm l'
    exact (insert_inorder_perm t s.transactionBST).trans ((hP.cons t).trans hl'.symm)
  · intro u hu
    rw [uet_transactionList] at hu
    rcases List.mem_cons.mp (hl'.subset hu) with h1 | h1
    · rw [h1]; exact hamt
    · exact hA u h1
  · intro a ha u hau
    rw [uet_undoStack] at ha
    exact hD a ha u hau
  · rw [uet_budgetMap_keys]
    exact hB
  · intro c
    show mapD (updateExpenseTracking _ t true).expenseMap c
      = expenseSum (updateExpenseTracking _ t true).transactionList c
    rw [uet_transactionList]
    show mapD (updateExpenseTracking _ t true).expenseMap c = expenseSum l' c
    rw [expenseSum_perm hl' c, expenseSum_cons]
    by_cases ht : t.type = "expense"
    · by_cases hc : c = t.category
      · rw [hc, uet_mapD_self _ t true ht, if_pos rfl, if_pos ⟨ht, rfl⟩]
        show mapD s.expenseMap t.category + t.amount
          = t.amount + expenseSum s.transactionList t.category
        rw [hE t.category, add_comm]
      · rw [uet_mapD_ne _ t true c hc, if_neg (fun hand => hc hand.2.symm), zero_add]
        exact hE c
    · rw [uet_nonexpense _ t true ht, if_neg (fun hand => ht hand.1), zero_add]
      exact hE c
  · exact uet_S _ t true (fun c bg hbg => hS c bg hbg)

end FinanceDSA

namespace FinanceDSA

/-! ## Characterizing the removal operations (claim C1, delete steps) -/

theorem findFirstById_some (i : String) (t : Transaction) :
    ∀ l : List Transaction, findFirstById l i = some t → t ∈ l ∧ t.id = i := by
  intro l
  induction l with
  | nil => intro h; exact absurd h (by simp [findFirstById])
  | cons u us ih =>
    intro h
    by_cases hu : u.id = i
    · rw [findFirstById, if_pos hu] at h
      injection h with h
      exact ⟨by rw [← h]; exact List.mem_cons_self u us, by rw [← h]; exact hu⟩
    · rw [findFirstById, if_neg hu] at h
      obtain ⟨h1, h2⟩ := ih h
      exact ⟨List.mem_cons_of_mem u h1, h2⟩

theorem findById_some (i : String) (t : Transaction) :
    ∀ b : BST, b.findById i = some t → t ∈ b.inorder ∧ t.id = i := by
  intro b
  induction b with
  | leaf => intro h; exact absurd h (by simp [BST.findById])
  | node l d txns r ihl ihr =>
    intro h
    rw [BST.findById] at h
    cases htx : findFirstById txns i with
    | some u =>
      rw [htx] at h
      injection h with h
      obtain ⟨h1, h2⟩ := findFirstById_some i u txns htx
      rw [← h]
      exact ⟨(by rw [BST.inorder]
                 exact List.mem_append.mpr (Or.inl (List.mem_append.mpr (Or.inr h1)))), h2⟩
    | none =>
      rw [htx] at h
      cases hl : BST.findById l i with
      | some u =>
        rw [hl] at h
        injection h with h
        obtain ⟨h1, h2⟩ := ihl (by rw [hl, h])
        exact ⟨(by rw [BST.inorder]
                   exact List.mem_append.mpr (Or.inl (List.mem_append.mpr (Or.inl h1)))), h2⟩
      | none =>
        rw [hl] at h
        obtain ⟨h1, h2⟩ := ihr h
        exact ⟨(by rw [BST.inorder]; exact List.mem_append.mpr (Or.inr h1)), h2⟩

theorem removeFirstById_some_perm (i : String) :
    ∀ (l l' : List Transaction), removeFirstById l i = some l' →
      ∃ u, u.id = i ∧ u ∈ l ∧ l.Perm (u :: l') := by
  intro l
  induction l with
  | nil => intro l' h; exact absurd h (by simp [removeFirstById])
  | cons t ts ih =>
    intro l' h
    by_cases ht : t.id = i
    · rw [removeFirstById, if_pos ht] at h
      injection h with h
      exact ⟨t, ht, List.mem_cons_self t ts, by rw [h]⟩
    · rw [removeFirstById, if_neg ht] at h
      cases hr : removeFirstById ts i with
      | none => rw [hr] at h; exact absurd h (by simp)
      | some ts' =>
        rw [hr] at h
        simp only [Option.map_some'] at h
        injection h with h
        obtain ⟨u, hui, humem, huperm⟩ := ih ts' hr
        refine ⟨u, hui, List.mem_cons_of_mem t humem, ?_⟩
        rw [← h]
        exact (huperm.cons t).trans (List.Perm.swap u t ts')

theorem removeFirstById_none (i : String) :
    ∀ l : List Transaction, removeFirstById l i = none → ∀ u ∈ l, u.id ≠ i := by
  intro l
  induction l with
  | nil => intro _ u hu; exact absurd hu (by simp)
  | cons t ts ih =>
    intro h u hu
    by_cases ht : t.id = i
    · rw [removeFirstById, if_pos ht] at h
      exact absurd h (by simp)
    · rw [removeFirstById, if_neg ht] at h
      cases hr : removeFirstById ts i with
      | some ts' => rw [hr] at h; exact absurd h (by simp)
      | none =>
        rcases List.mem_cons.mp hu with hu | hu
        · rw [hu]; exact ht
        · exact ih hr u hu

theorem deleteHelper_some_perm (i : String) :
    ∀ (b b' : BST), BST.deleteHelper b i = some b' →
      ∃ u, u.id = i ∧ u ∈ b.inorder ∧ b.inorder.Perm (u :: b'.inorder) := by
  intro b
  induction b with
  | leaf => intro b' h; exact absurd h (by simp [BST.deleteHelper])
  | node l d txns r ihl ihr =>
    intro b' h
    rw [BST.deleteHelper] at h
    cases htx : removeFirstById txns i with
    | some txns' =>
      rw [htx] at h
      injection h with h
      obtain ⟨u, hui, humem, huperm⟩ := removeFirstById_some_perm i txns txns' htx
      refine ⟨u, hui,
        (by rw [BST.inorder]
            exact List.mem_append.mpr (Or.inl (List.mem_append.mpr (Or.inr humem)))), ?_⟩
      rw [← h, BST.inorder, BST.inorder]
      have h1 : (l.inorder ++ txns ++ r.inorder).Perm
          (l.inorder ++ (u :: txns') ++ r.inorder) :=
        ((huperm.append_left l.inorder).append_right r.inorder)
      refine h1.trans ?_
      have h2 : (l.inorder ++ u :: txns').Perm (u :: (l.inorder ++ txns')) :=
        List.perm_middle
      exact h2.append_right r.inorder
    | none =>
      rw [htx] at h
      cases hdl : BST.deleteHelper l i with
      | some l1 =>
        rw [hdl] at h
        injection h with h
        obtain ⟨u, hui, humem, huperm⟩ := ihl l1 hdl
        refine ⟨u, hui,
          (by rw [BST.inorder]
              exact List.mem_append.mpr (Or.inl (List.mem_append.mpr (Or.inl humem)))), ?_⟩
        rw [← h, BST.inorder, BST.inorder]
        have h1 : (l.inorder ++ txns ++ r.inorder).Perm
            ((u :: l1.inorder) ++ txns ++ r.inorder) :=
          ((huperm.append_right txns).append_right r.inorder)
        exact h1
      | none =>
        rw [hdl] at h
        cases hdr : BST.deleteHelper r i with
        | none => rw [hdr] at h; exact absurd h (by simp)
        | some r1 =>
          rw [hdr] at h
          simp only [Option.map_some'] at h
          injection h with h
          obtain ⟨u, hui, humem, huperm⟩ := ihr r1 hdr
          refine ⟨u, hui,
            (by rw [BST.inorder]; exact List.mem_append.mpr (Or.inr humem)), ?_⟩
          rw [← h, BST.inorder, BST.inorder]
          refine (huperm.append_left (l.inorder ++ txns)).trans ?_
          exact List.perm_middle
  
theorem deleteHelper_none (i : String) :
    ∀ b : BST, BST.deleteHelper b i = none → ∀ u ∈ b.inorder, u.id ≠ i := by
  intro b
  induction b with
  | leaf => intro _ u hu; exact absurd hu (by simp [BST.inorder])
  | node l d txns r ihl ihr =>
    intro h u hu
    rw [BST.deleteHelper] at h
    cases htx : removeFirstById txns i with
    | some txns' => rw [htx] at h; exact absurd h (by simp)
    | none =>
      rw [htx] at h
      cases hdl : BST.deleteHelper l i with
      | some l1 => rw [hdl] at h; exact absurd h (by simp)
      | none =>
        rw [hdl] at h
        cases hdr : BST.deleteHelper r i with
        | some r1 => rw [hdr] at h; exact absurd h (by simp)
        | none =>
          rw [BST.inorder] at hu
          rcases List.mem_append.mp hu with hu | hu
          · rcases List.mem_append.mp hu with hu | hu
            · exact ihl hdl u hu
            · exact removeFirstById_none i txns htx u hu
          · exact ihr hdr u hu

theorem nodup_map_unique {α β : Type} (f : α → β) :
    ∀ l : List α, (l.map f).Nodup →
      ∀ a ∈ l, ∀ b ∈ l, f a = f b → a = b := by
  intro l
  induction l with
  | nil => intro _ a ha; exact absurd ha (by simp)
  | cons x xs ih =>
    intro hnd a ha b hb hfab
    rw [List.map_cons, List.nodup_cons] at hnd
    rcases List.mem_cons.mp ha with ha | ha <;> rcases List.mem_cons.mp hb with hb | hb
    · rw [ha, hb]
    · exact absurd (by rw [← ha, hfab]; exact List.mem_map_of_mem f hb) hnd.1
    · exact absurd (by rw [← hb, ← hfab]; exact List.mem_map_of_mem f ha) hnd.1
    · exact ih hnd.2 a ha b hb hfab

end FinanceDSA

namespace FinanceDSA

/-- `deleteTransaction` preserves the invariant (also the engine of the
`ADD_TRANSACTION` branch of `undo`).  The id's uniqueness across the ledger
identifies the element removed from the list with the element removed from
the BST bucket. -/
theorem inv_deleteTransaction (s : EngineState) (i : String) (h : engineInv s) :
    engineInv (deleteTransaction s i).2 := by
  cases hfind : s.transactionBST.findById i with
  | none =>
    rw [deleteTransaction, hfind]
    exact h
  | some t =>
    rw [deleteTransaction_found s i t hfind]
    obtain ⟨hN, hP, hA, hD, hB, hE, hS⟩ := h
    obtain ⟨htmem, htid⟩ := findById_some i t s.transactionBST hfind
    have htlist : t ∈ s.transactionList := hP.subset htmem
    have hNl : (s.transactionList.map Transaction.id).Nodup := hN.of_append_left
    cases hrem : removeFirstById s.transactionList i with
    | none => exact absurd htid (removeFirstById_none i s.transactionList hrem t htlist)
    | some l' =>
      have hld : listDeleteById s.transactionList i = l' := by rw [listDeleteById, hrem]
      obtain ⟨u, huid, humem, huperm⟩ := removeFirstById_some_perm i s.transactionList l' hrem
      have hut : u = t :=
        nodup_map_unique Transaction.id s.transactionList hNl u humem t htlist
          (by rw [huid, htid])
      rw [hut] at huperm
      cases hdh : BST.deleteHelper s.transactionBST i with
      | none => exact absurd htid (deleteHelper_none i s.transactionBST hdh t htmem)
      | some b1 =>
        have hbd : s.transactionBST.deleteById i = b1 := by rw [BST.deleteById, hdh]
        obtain ⟨v, hvid, hvmem, hvperm⟩ := deleteHelper_some_perm i s.transactionBST b1 hdh
        have hvt : v = t :=
          nodup_map_unique Transaction.id s.transactionList hNl v (hP.subset hvmem) t htlist
            (by rw [hvid, htid])
        rw [hvt] at hvperm
        have hbstl : b1.inorder.Perm l' :=
          List.Perm.cons_inv ((hvperm.symm.trans hP).trans huperm)
        obtain ⟨st1, hshape, hsub⟩ :=
          stackPushCap_shape undoCap s.undoStack (Action.DELETE_TRANSACTION t)
        rw [hld, hbd, hshape]
        have hA' : ∀ w ∈ l', 0 ≤ w.amount := fun w hw =>
          hA w (huperm.symm.subset (List.mem_cons_of_mem t hw))
        refine ⟨?_, ?_, ?_, ?_, ?_, ?_, ?_⟩
        · show ((updateExpenseTracking _ t false).transactionList.map Transaction.id
              ++ delPayloadIds (updateExpenseTracking _ t false).undoStack).Nodup
          rw [uet_transactionList, uet_undoStack]
          show (l'.map Transaction.id
              ++ delPayloadIds (Action.DELETE_TRANSACTION t :: st1)).Nodup
          rw [delPayloadIds_cons_del]
          have hp1 : (l'.map Transaction.id ++ t.id :: delPayloadIds st1).Perm
              (t.id :: (l'.map Transaction.id ++ delPayloadIds st1)) :=
            List.perm_middle
          refine hp1.symm.nodup (List.nodup_cons.mpr ⟨?_, ?_⟩)
          · have hN2 : (t.id :: (l'.map Transaction.id
                ++ delPayloadIds s.undoStack)).Nodup := by
              have hp2 := (huperm.map Transaction.id).append_right
                (delPayloadIds s.undoStack)
              exact ((by simpa using hp2 :
                (s.transactionList.map Transaction.id ++ delPayloadIds s.undoStack).Perm
                  (t.id :: (l'.map Transaction.id ++ delPayloadIds s.undoStack)))).nodup hN
            intro hmem
            exact (List.nodup_cons.mp hN2).1
              (((delPayloadIds_sublist hsub).append_left _).subset hmem)
          · have hN2 : (t.id :: (l'.map Transaction.id
                ++ delPayloadIds s.undoStack)).Nodup := by
              have hp2 := (huperm.map Transaction.id).append_right
                (delPayloadIds s.undoStack)
              exact ((by simpa using hp2 :
                (s.transactionList.map Transaction.id ++ delPayloadIds s.undoStack).Perm
                  (t.id :: (l'.map Transaction.id ++ delPayloadIds s.undoStack)))).nodup hN
            exact List.Nodup.sublist ((delPayloadIds_sublist hsub).append_left _)
              (List.nodup_cons.mp hN2).2
        · show (updateExpenseTracking _ t false).transactionBST.inorder.Perm
              (updateExpenseTracking _ t false).transactionList
          rw [uet_transactionBST, uet_transactionList]
          exact hbstl
        · intro w hw
          rw [uet_transactionList] at hw
          exact hA' w hw
        · intro a ha w haw
          rw [uet_undoStack] at ha
          rcases List.mem_cons.mp ha with ha | ha
          · rw [ha] at haw
            injection haw with haw
            rw [← haw]
            exact hA t htlist
          · exact hD a (hsub.subset ha) w haw
        · rw [uet_budgetMap_keys]
          exact hB
        · intro c
          show mapD (updateExpenseTracking _ t false).expenseMap c
            = expenseSum (updateExpenseTracking _ t false).transactionList c
          rw [uet_transactionList]
          show mapD (updateExpenseTracking _ t false).expenseMap c = expenseSum l' c
          have hEl : expenseSum s.transactionList c
              = (if t.type = "expense" ∧ t.category = c then t.amount else 0)
                + expenseSum l' c := by
            rw [expenseSum_perm huperm c, expenseSum_cons]
          by_cases ht : t.type = "expense"
          · by_cases hc : c = t.category
            · rw [hc] at hEl ⊢
              rw [uet_mapD_self _ t false ht, if_neg (by simp)]
              show max 0 (mapD s.expenseMap t.category - t.amount) = _
              rw [hE t.category, hEl, if_pos ⟨ht, rfl⟩]
              have harith : t.amount + expenseSum l' t.category - t.amount
                  = expenseSum l' t.category := by ring
              rw [harith]
              exact max_eq_right (expenseSum_nonneg hA' t.category)
            · rw [uet_mapD_ne _ t false c hc]
              show mapD s.expenseMap c = _
              rw [hE c, hEl, if_neg (fun hand => hc hand.2.symm), zero_add]
          · rw [uet_nonexpense _ t false ht]
            show mapD s.expenseMap c = _
            rw [hE c, hEl, if_neg (fun hand => ht hand.1), zero_add]
        · exact uet_S _ t false (fun c bg hbg => hS c bg hbg)

end FinanceDSA

namespace FinanceDSA

/-! ## Projections of `loadTransaction` -/

theorem loadT_transactionList (s : EngineState) (id ty : String) (amount : ℚ)
    (category description date : String) :
    (loadTransaction s id ty amount category description date).transactionList
      = s.transactionList ++ [(⟨id, ty, amount, category, description, date⟩ : Transaction)] := by
  rw [loadTransaction]
  dsimp only
  split <;> simp [uet_transactionList]

theorem loadT_transactionBST (s : EngineState) (id ty : String) (amount : ℚ)
    (category description date : String) :
    (loadTransaction s id ty amount category description date).transactionBST
      = s.transactionBST.insert (⟨id, ty, amount, category, description, date⟩ : Transaction) := by
  rw [loadTransaction]
  dsimp only
  split <;> simp [uet_transactionBST]

theorem loadT_undoStack (s : EngineState) (id ty : String) (amount : ℚ)
    (category description date : String) :
    (loadTransaction s id ty amount category description date).undoStack = s.undoStack := by
  rw [loadTransaction]
  dsimp only
  split <;> simp [uet_undoStack]

theorem loadT_budgetMap (s : EngineState) (id ty : String) (amount : ℚ)
    (category description date : String) :
    (loadTransaction s id ty amount category description date).budgetMap
      = (updateExpenseTracking s
          (⟨id, ty, amount, category, description, date⟩ : Transaction) true).budgetMap := by
  rw [loadTransaction]
  dsimp only
  split <;> refine (uet_maps_congr _ _ _ true ?_ ?_).1 <;> rfl

theorem loadT_expenseMap (s : EngineState) (id ty : String) (amount : ℚ)
    (category description date : String) :
    (loadTransaction s id ty amount category description date).expenseMap
      = (updateExpenseTracking s
          (⟨id, ty, amount, category, description, date⟩ : Transaction) true).expenseMap := by
  rw [loadTransaction]
  dsimp only
  split <;> refine (uet_maps_congr _ _ _ true ?_ ?_).2 <;> rfl

/-! ## Invariant preservation, one lemma per mutating engine call -/

theorem inv_addTransaction (s : EngineState) (id ty : String) (amount : ℚ)
    (category description date : String)
    (hfresh : id ∉ usedIds s) (hamt : 0 ≤ amount) (h : engineInv s) :
    engineInv (addTransaction s id ty amount category description date).2 := by
  have h1 := inv_insert_core s ⟨id, ty, amount, category, description, date⟩
    ((⟨id, ty, amount, category, description, date⟩ : Transaction) :: s.transactionList)
    (List.Perm.refl _) hfresh hamt h
  have h2 := inv_stack_push_nonDel _
    (Action.ADD_TRANSACTION ⟨id, ty, amount, category, description, date⟩)
    (fun u hu => Action.noConfusion hu) h1
  refine engineInv_congr _ _ ?_ ?_ ?_ ?_ ?_ h2
  · show _ = (updateExpenseTracking
      { s with
          transactionList :=
            (⟨id, ty, amount, category, description, date⟩ : Transaction) :: s.transactionList,
          transactionBST :=
            s.transactionBST.insert ⟨id, ty, amount, category, description, date⟩ }
      ⟨id, ty, amount, category, description, date⟩ true).transactionList
    rw [addT_transactionList, uet_transactionList]
  · show _ = (updateExpenseTracking
      { s with
          transactionList :=
            (⟨id, ty, amount, category, description, date⟩ : Transaction) :: s.transactionList,
          transactionBST :=
            s.transactionBST.insert ⟨id, ty, amount, category, description, date⟩ }
      ⟨id, ty, amount, category, description, date⟩ true).transactionBST
    rw [addT_transactionBST, uet_transactionBST]
  · show _ = stackPushCap undoCap (updateExpenseTracking
      { s with
          transactionList :=
            (⟨id, ty, amount, category, description, date⟩ : Transaction) :: s.transactionList,
          transactionBST :=
            s.transactionBST.insert ⟨id, ty, amount, category, description, date⟩ }
      ⟨id, ty, amount, category, description, date⟩ true).undoStack
      (Action.ADD_TRANSACTION ⟨id, ty, amount, category, description, date⟩)
    rw [addT_undoStack, uet_undoStack]
  · show _ = (updateExpenseTracking
      { s with
          transactionList :=
            (⟨id, ty, amount, category, description, date⟩ : Transaction) :: s.transactionList,
          transactionBST :=
            s.transactionBST.insert ⟨id, ty, amount, category, description, date⟩ }
      ⟨id, ty, amount, category, description, date⟩ true).budgetMap
    rw [addT_budgetMap]
    refine (uet_maps_congr _ _ _ true ?_ ?_).1 <;> rfl
  · show _ = (updateExpenseTracking
      { s with
          transactionList :=
            (⟨id, ty, amount, category, description, date⟩ : Transaction) :: s.transactionList,
          transactionBST :=
            s.transactionBST.insert ⟨id, ty, amount, category, description, date⟩ }
      ⟨id, ty, amount, category, description, date⟩ true).expenseMap
    rw [addT_expenseMap]
    refine (uet_maps_congr _ _ _ true ?_ ?_).2 <;> rfl

theorem inv_loadTransaction (s : EngineState) (id ty : String) (amount : ℚ)
    (category description date : String)
    (hfresh : id ∉ usedIds s) (hamt : 0 ≤ amount) (h : engineInv s) :
    engineInv (loadTransaction s id ty amount category description date) := by
  have h1 := inv_insert_core s ⟨id, ty, amount, category, description, date⟩
    (s.transactionList ++ [(⟨id, ty, amount, category, description, date⟩ : Transaction)])
    (List.perm_append_singleton _ _) hfresh hamt h
  refine engineInv_congr _ _ ?_ ?_ ?_ ?_ ?_ h1
  · show _ = (updateExpenseTracking
      { s with
          transactionList := s.transactionList
            ++ [(⟨id, ty, amount, category, description, date⟩ : Transaction)],
          transactionBST :=
            s.transactionBST.insert ⟨id, ty, amount, category, description, date⟩ }
      ⟨id, ty, amount, category, description, date⟩ true).transactionList
    rw [loadT_transactionList, uet_transactionList]
  · show _ = (updateExpenseTracking
      { s with
          transactionList := s.transactionList
            ++ [(⟨id, ty, amount, category, description, date⟩ : Transaction)],
          transactionBST :=
            s.transactionBST.insert ⟨id, ty, amount, category, description, date⟩ }
      ⟨id, ty, amount, category, description, date⟩ true).transactionBST
    rw [loadT_transactionBST, uet_transactionBST]
  · show _ = (updateExpenseTracking
      { s with
          transactionList := s.transactionList
            ++ [(⟨id, ty, amount, category, description, date⟩ : Transaction)],
          transactionBST :=
            s.transactionBST.insert ⟨id, ty, amount, category, description, date⟩ }
      ⟨id, ty, amount, category, description, date⟩ true).undoStack
    rw [loadT_undoStack, uet_undoStack]
  · show _ = (updateExpenseTracking
      { s with
          transactionList := s.transactionList
            ++ [(⟨id, ty, amount, category, description, date⟩ : Transaction)],
          transactionBST :=
            s.transactionBST.insert ⟨id, ty, amount, category, description, date⟩ }
      ⟨id, ty, amount, category, description, date⟩ true).budgetMap
    rw [loadT_budgetMap]
    refine (uet_maps_congr _ _ _ true ?_ ?_).1 <;> rfl
  · show _ = (updateExpenseTracking
      { s with
          transactionList := s.transactionList
            ++ [(⟨id, ty, amount, category, description, date⟩ : Transaction)],
          transactionBST :=
            s.transactionBST.insert ⟨id, ty, amount, category, description, date⟩ }
      ⟨id, ty, amount, category, description, date⟩ true).expenseMap
    rw [loadT_expenseMap]
    refine (uet_maps_congr _ _ _ true ?_ ?_).2 <;> rfl

theorem inv_setBudget (s : EngineState) (category : String) (limit : ℚ)
    (h : engineInv s) : engineInv (setBudget s category limit) := by
  obtain ⟨hN, hP, hA, hD, hB, hE, hS⟩ := h
  rw [setBudget]
  dsimp only
  cases hl : mapLookup s.budgetMap category with
  | some existing =>
    simp only [hl]
    have h1 := inv_stack_push_nonDel s (Action.UPDATE_BUDGET category existing.limit)
      (fun u hu => Action.noConfusion hu) ⟨hN, hP, hA, hD, hB, hE, hS⟩
    have h2 := inv_set_budgetMap
      { s with undoStack := stackPushCap undoCap s.undoStack (Action.UPDATE_BUDGET category existing.limit) }
      (mapUpdate s.budgetMap category { existing with limit := limit }) h1
      (by rw [mapUpdate_map_fst]; exact hB)
      (by
        intro c b hb
        by_cases hc : c = category
        · rw [hc] at hb ⊢
          rw [mapLookup_update_of_some category _ existing s.budgetMap hl] at hb
          injection hb with hb
          rw [← hb]
          exact hS category existing hl
        · rw [mapLookup_update_ne category c _ hc] at hb
          exact hS c b hb)
    exact engineInv_congr _ _ rfl rfl rfl rfl rfl h2
  | none =>
    simp only [hl]
    have h1 := inv_stack_push_nonDel s (Action.ADD_BUDGET category limit)
      (fun u hu => Action.noConfusion hu) ⟨hN, hP, hA, hD, hB, hE, hS⟩
    have h2 := inv_set_budgetMap
      { s with undoStack := stackPushCap undoCap s.undoStack (Action.ADD_BUDGET category limit) }
      (mapInsert s.budgetMap category ⟨category, limit, mapD s.expenseMap category⟩) h1
      (nodup_mapInsert category _ s.budgetMap hB)
      (by
        intro c b hb
        by_cases hc : c = category
        · rw [hc] at hb ⊢
          rw [mapLookup_insert_self] at hb
          injection hb with hb
          rw [← hb]
        · rw [mapLookup_insert_ne category c _ hc] at hb
          exact hS c b hb)
    exact engineInv_congr _ _ rfl rfl rfl rfl rfl h2

theorem inv_loadBudget (s : EngineState) (category : String) (limit : ℚ)
    (h : engineInv s) : engineInv (loadBudget s category limit) := by
  obtain ⟨hN, hP, hA, hD, hB, hE, hS⟩ := h
  have h2 := inv_set_budgetMap s
    (mapInsert s.budgetMap category ⟨category, limit, mapD s.expenseMap category⟩)
    ⟨hN, hP, hA, hD, hB, hE, hS⟩
    (nodup_mapInsert category _ s.budgetMap hB)
    (by
      intro c b hb
      by_cases hc : c = category
      · rw [hc] at hb ⊢
        rw [mapLookup_insert_self] at hb
        injection hb with hb
        rw [← hb]
      · rw [mapLookup_insert_ne category c _ hc] at hb
        exact hS c b hb)
  exact engineInv_congr _ _ rfl rfl rfl rfl rfl h2

theorem inv_addBill (s : EngineState) (id name : String) (amount : ℚ)
    (dueDate category : String) (h : engineInv s) :
    engineInv (addBill s id name amount dueDate category).2 := by
  have h1 := inv_stack_push_nonDel s
    (Action.ADD_BILL ⟨id, name, amount, dueDate, category, false⟩)
    (fun u hu => Action.noConfusion hu) h
  exact engineInv_congr _ _ rfl rfl rfl rfl rfl h1

theorem inv_payBill (s : EngineState) (id : String) (h : engineInv s) :
    engineInv (payBill s id).2 := by
  rw [payBill]
  cases hf : findBillById s.billQueue id with
  | none => exact h
  | some b =>
    have h1 := inv_stack_push_nonDel s (Action.PAY_BILL id)
      (fun u hu => Action.noConfusion hu) h
    exact engineInv_congr _ _ rfl rfl rfl rfl rfl h1

theorem inv_removeBill (s : EngineState) (id : String) (h : engineInv s) :
    engineInv (removeBill s id).2 := by
  rw [removeBill]
  cases hf : findBillById s.billQueue id with
  | none => exact h
  | some b =>
    have h1 := inv_stack_push_nonDel s (Action.DELETE_BILL b)
      (fun u hu => Action.noConfusion hu) h
    exact engineInv_congr _ _ rfl rfl rfl rfl rfl h1

theorem inv_loadBill (s : EngineState) (id name : String) (amount : ℚ)
    (dueDate category : String) (isPaid : Bool) (h : engineInv s) :
    engineInv (loadBill s id name amount dueDate category isPaid) := by
  exact engineInv_congr _ _ rfl rfl rfl rfl rfl h

theorem inv_undo (s : EngineState) (h : engineInv s) : engineInv (undo s).2 := by
  cases hst : s.undoStack with
  | nil =>
    rw [undo, hst]
    exact h
  | cons a rest =>
    have hrest : List.Sublist rest s.undoStack := by
      rw [hst]; exact List.sublist_cons_self a rest
    have h1 : engineInv { s with undoStack := rest } := inv_stack_sublist s rest hrest h
    rw [undo, hst]
    cases a with
    | ADD_TRANSACTION t =>
      dsimp only
      have h2 := inv_deleteTransaction { s with undoStack := rest } t.id h1
      exact inv_stack_sublist _ _ (List.tail_sublist _) h2
    | DELETE_TRANSACTION t =>
      dsimp only
      obtain ⟨hN, hP, hA, hD, hB, hE, hS⟩ := h
      rw [usedIds, hst, delPayloadIds_cons_del] at hN
      have hfresh : t.id ∉ usedIds { s with undoStack := rest } := by
        show t.id ∉ s.transactionList.map Transaction.id ++ delPayloadIds rest
        have hp : (s.transactionList.map Transaction.id ++ t.id :: delPayloadIds rest).Perm
            (t.id :: (s.transactionList.map Transaction.id ++ delPayloadIds rest)) :=
          List.perm_middle
        exact (List.nodup_cons.mp (hp.nodup hN)).1
      have hamt : 0 ≤ t.amount :=
        hD (Action.DELETE_TRANSACTION t)
          (by rw [hst]; exact List.mem_cons_self _ _) t rfl
      exact inv_insert_core { s with undoStack := rest } t
        (t :: ({ s with undoStack := rest } : EngineState).transactionList)
        (List.Perm.refl _) hfresh hamt h1
    | ADD_BUDGET category limit =>
      dsimp only
      obtain ⟨hN1, hP1, hA1, hD1, hB1, hE1, hS1⟩ := h1
      have h2 := inv_set_budgetMap { s with undoStack := rest }
        (mapRemove ({ s with undoStack := rest } : EngineState).budgetMap category)
        ⟨hN1, hP1, hA1, hD1, hB1, hE1, hS1⟩
        (List.Nodup.sublist ((mapRemove_sublist category _).map Prod.fst) hB1)
        (by
          intro c b hb
          have hmem := mapLookup_mem c b _ hb
          have hmem2 := (mapRemove_sublist category _).subset hmem
          exact hS1 c b (mapLookup_of_mem_nodup c b _ hB1 hmem2))
      exact h2
    | UPDATE_BUDGET category oldLimit =>
      dsimp only
      cases hlk : mapLookup ({ s with undoStack := rest } : EngineState).budgetMap category with
      | none =>
        simp only [hlk]
        exact h1
      | some b =>
        simp only [hlk]
        obtain ⟨hN1, hP1, hA1, hD1, hB1, hE1, hS1⟩ := h1
        have h2 := inv_set_budgetMap { s with undoStack := rest }
          (mapUpdate ({ s with undoStack := rest } : EngineState).budgetMap category
            { b with limit := oldLimit })
          ⟨hN1, hP1, hA1, hD1, hB1, hE1, hS1⟩
          (by rw [mapUpdate_map_fst]; exact hB1)
          (by
            intro c bg hbg
            by_cases hc : c = category
            · rw [hc] at hbg ⊢
              rw [mapLookup_update_of_some category _ b _ hlk] at hbg
              injection hbg with hbg
              rw [← hbg]
              exact hS1 category b hlk
            · rw [mapLookup_update_ne category c _ hc] at hbg
              exact hS1 c bg hbg)
        exact h2
    | ADD_BILL b =>
      dsimp only
      exact h1
    | DELETE_BILL b =>
      dsimp only
      exact h1
    | PAY_BILL i =>
      dsimp only
      exact h1

theorem engineInv_initState : engineInv initState := by
  refine ⟨?_, ?_, ?_, ?_, ?_, ?_, ?_⟩
  · exact List.nodup_nil
  · exact List.Perm.refl []
  · intro t ht
    exact absurd ht (List.not_mem_nil t)
  · intro a ha u hau
    exact absurd ha (List.not_mem_nil a)
  · exact List.nodup_nil
  · intro c
    rfl
  · intro c b hb
    exact Option.noConfusion hb

/-- Every reachable engine state satisfies the cross-structure invariant. -/
theorem reachable_inv {s : EngineState} (h : Reachable s) : engineInv s := by
  induction h with
  | init => exact engineInv_initState
  | step_add id ty amount category description date hfresh hamt h ih =>
    exact inv_addTransaction _ id ty amount category description date hfresh hamt ih
  | step_load id ty amount category description date hfresh hamt h ih =>
    exact inv_loadTransaction _ id ty amount category description date hfresh hamt ih
  | step_delete id h ih => exact inv_deleteTransaction _ id ih
  | step_setBudget category limit h ih => exact inv_setBudget _ category limit ih
  | step_loadBudget category limit h ih => exact inv_loadBudget _ category limit ih
  | step_undo h ih => exact inv_undo _ ih
  | step_addBill id name amount dueDate category h ih =>
    exact inv_addBill _ id name amount dueDate category ih
  | step_payBill id h ih => exact inv_payBill _ id ih
  | step_removeBill id h ih => exact inv_removeBill _ id ih
  | step_loadBill id name amount dueDate category isPaid h ih =>
    exact inv_loadBill _ id name amount dueDate category isPaid ih

end FinanceDSA

namespace FinanceDSA

/-! ## Claim C1 — the budget-sync invariant -/

/-- **C1 (amended: `clearAll` excluded).**  After every mutating engine call
other than `clearAll` — i.e. in every state reachable through
`addTransaction`, `deleteTransaction`, `setBudget`, `undo`,
`loadTransaction`, `loadBudget` and the bill calls — every category that
has a Budget has `spent` equal to the sum of the amounts of the expense
transactions currently in the ledger with that category, clamped at 0. -/
theorem claim_C1 (s : EngineState) (h : Reachable s) (c : String) (b : Budget)
    (hb : getBudget s c = some b) :
    b.spent = max 0 (expenseSum (getAllTransactions s) c) := by
  obtain ⟨hN, hP, hA, hD, hB, hE, hS⟩ := reachable_inv h
  rw [getAllTransactions]
  have h1 : b.spent = mapD s.expenseMap c := hS c b hb
  rw [h1, hE c, max_eq_right (expenseSum_nonneg hA c)]

/-- **C1 counterexample (the `clearAll` case of the claim).**  On
`clearedState` — a 100 budget for "Food", one 50-expense, then
`clearAll()` — the "Food" budget still reports `spent = 50`, while the
ledger is empty, so the clamped ledger sum is 0: the claimed equality fails
after the mutating call `clearAll`. -/
theorem claim_C1_counterexample :
    (getBudget clearedState "Food").map Budget.spent = some 50
    ∧ max 0 (expenseSum (getAllTransactions clearedState) "Food") = 0
    ∧ (50 : ℚ) ≠ 0 := by
  refine ⟨?_, ?_, by norm_num⟩
  · have h2 : mapLookup budgetState.budgetMap "Food"
        = some ⟨"Food", 100, 0⟩ := rfl
    have h1 : clearedState.budgetMap
        = (updateExpenseTracking budgetState
            ⟨"t1", "expense", 50, "Food", "", "2024-02-01"⟩ true).budgetMap := by
      show (addTransaction budgetState "t1" "expense" 50 "Food" "" "2024-02-01").2.budgetMap = _
      exact addT_budgetMap budgetState "t1" "expense" 50 "Food" "" "2024-02-01"
    show (mapLookup clearedState.budgetMap "Food").map Budget.spent = some 50
    rw [h1, uet_budgetMap_expense _ _ true rfl]
    rw [h2]
    simp only
    rw [mapLookup_update_of_some "Food" _ _ budgetState.budgetMap h2]
    simp only [Option.map_some', Option.some.injEq]
    have h3 : mapD budgetState.expenseMap "Food" = 0 := rfl
    show (if true = true then mapD budgetState.expenseMap "Food" + 50
          else max 0 (mapD budgetState.expenseMap "Food" - 50)) = 50
    rw [if_pos rfl, h3]
    norm_num
  · have h4 : getAllTransactions clearedState = [] := rfl
    rw [h4]
    have h5 : expenseSum [] "Food" = 0 := rfl
    rw [h5]
    exact max_self 0

/-- Witness for C1: `budgetState` is reachable (`setBudget` from the fresh
engine), its "Food" budget reports `spent = 0`, and the empty ledger's
clamped expense sum is 0. -/
theorem claim_C1_witness :
    getBudget budgetState "Food" = some ⟨"Food", 100, 0⟩
    ∧ (⟨"Food", 100, 0⟩ : Budget).spent
        = max 0 (expenseSum (getAllTransactions budgetState) "Food") :=
  ⟨rfl, claim_C1 budgetState (Reachable.step_setBudget "Food" 100 Reachable.init)
      "Food" ⟨"Food", 100, 0⟩ rfl⟩

end FinanceDSA
